import Mathlib

/-!
A shallow embedding of the `simplemodels` declarative data-modeling engine
(`simplemodels/fields.py`, `simplemodels/models.py`) in Lean 4, together with
theorems settling the specification claims about it.

Conventions of the embedding:
* Python values are modelled by the inductive type `Value`; machine-level
  aspects that the claims do not touch (exact float printing, `repr` strings)
  are modelled by simple total functions and noted in comments.
* Exceptions are modelled by `Except PyError`; the `PyError` constructors
  mirror the Python exception classes raised by the source (builtin
  `TypeError`/`ValueError` plus the `simplemodels.exceptions` hierarchy).
  Exception messages carry no behavioral content and are not modelled.
* A Python `dict` is an insertion-ordered association list with unique keys;
  `update` mirrors `d[k] = v` (replace in place, else append).
* `Document` instances have two stores, exactly as in CPython:
  `attrs` models `instance.__dict__` (written by the `SimpleField` descriptor)
  and `items` models the underlying `dict` contents of the
  `Document`/`AttributeDict` subclass of `dict`.
-/

namespace SimpleModels

/-- Python exception kinds raised by the embedded code.  `typeError` and
`valueError` are the Python builtins; the rest mirror
`simplemodels/exceptions.py`. -/
inductive PyError where
  | typeError
  | valueError
  | validationError
  | fieldRequiredError
  | immutableFieldError
  | immutableDocumentError
  | modelNotFoundError
  | fieldError
  | modelValidationError
  | indexError
deriving DecidableEq, Repr

/-- Taxonomy kind from spec section 7: a "ValidationError"-kind failure is a
value failing coercion or a choices/length constraint.  The source raises the
builtin `ValueError`/`TypeError` for coercion failures and
`simplemodels.exceptions.ValidationError` for constraint failures; the spec's
taxonomy names kinds, not concrete classes. -/
def PyError.isValidationKind : PyError → Bool
  | .valueError => true
  | .validationError => true
  | .typeError => true
  | _ => false

/-- The element type carried by a `ListField` (`of=...`) or the model argument
of a `DocumentField`: a Python callable (`int`, `float`, `str`, `bool`), a
`Document` subclass (identified by its registered name), or a string forward
reference resolved lazily through the registry. -/
inductive OfType where
  | pyInt
  | pyFloat
  | pyStr
  | pyBool
  | docClass (name : String)
  | strName (name : String)
deriving DecidableEq, Repr

/-- Python runtime values relevant to the engine.  `float` is modelled by an
exact rational (the claims never depend on binary rounding), `docInstance`
is a constructed `Document` seen as a value (its `dict` contents), and
`listType` is the `ListType` wrapper of `ListField`: element type, the
materialized flag (`_raw_value` deleted and `_list` set), and the current
elements (`_raw_value` before materialization, `_list` after). -/
inductive Value where
  | none
  | int (n : ℤ)
  | float (q : ℚ)
  | str (s : String)
  | bool (b : Bool)
  | list (xs : List Value)
  | dict (kvs : List (String × Value))
  | docInstance (kvs : List (String × Value))
  | listType (of : OfType) (materialized : Bool) (xs : List Value)
deriving Repr

/-- Association-list lookup, modelling `dict.get` / `k in d`. -/
def alookup : List (String × Value) → String → Option Value
  | [], _ => Option.none
  | (k, v) :: rest, key => if k = key then some v else alookup rest key

/-- Association-list store, modelling `d[k] = v` on a Python dict: replace the
value in place if the key exists, else append the pair at the end. -/
def aupdate : List (String × Value) → String → Value → List (String × Value)
  | [], key, v => [(key, v)]
  | (k, w) :: rest, key, v =>
      if k = key then (k, v) :: rest else (k, w) :: aupdate rest key v

/-- Keys of an association list, in order. -/
def akeys (kvs : List (String × Value)) : List String := kvs.map Prod.fst

@[simp] theorem alookup_nil (k : String) : alookup [] k = Option.none := rfl

theorem alookup_cons (k key : String) (v : Value) (rest : List (String × Value)) :
    alookup ((k, v) :: rest) key = if k = key then some v else alookup rest key := rfl

theorem aupdate_cons (k key : String) (w v : Value) (rest : List (String × Value)) :
    aupdate ((k, w) :: rest) key v =
      if k = key then (k, v) :: rest else (k, w) :: aupdate rest key v := rfl

theorem alookup_aupdate_ne (kvs : List (String × Value)) (k k' : String) (v : Value)
    (h : k ≠ k') : alookup (aupdate kvs k v) k' = alookup kvs k' := by
  induction kvs with
  | nil => simp [aupdate, alookup, h]
  | cons hd tl ih =>
      obtain ⟨k0, v0⟩ := hd
      by_cases hk : k0 = k
      · subst hk
        simp [aupdate, alookup, h]
      · simp [aupdate, alookup, hk, ih]

theorem alookup_aupdate_self (kvs : List (String × Value)) (k : String) (v : Value) :
    alookup (aupdate kvs k v) k = some v := by
  induction kvs with
  | nil => simp [aupdate, alookup]
  | cons hd tl ih =>
      obtain ⟨k0, v0⟩ := hd
      by_cases hk : k0 = k
      · subst hk; simp [aupdate, alookup]
      · simp [aupdate, alookup, hk, ih]

theorem akeys_aupdate_of_mem (kvs : List (String × Value)) (k : String) (v : Value)
    (h : k ∈ akeys kvs) : akeys (aupdate kvs k v) = akeys kvs := by
  induction kvs with
  | nil => simp [akeys] at h
  | cons hd tl ih =>
      obtain ⟨k0, v0⟩ := hd
      by_cases hk : k0 = k
      · subst hk; simp [aupdate, akeys]
      · have h' : k ∈ akeys tl := by
          rcases List.mem_cons.mp h with h | h
          · exact absurd h.symm hk
          · exact h
        simp only [aupdate, akeys, List.map_cons, if_neg hk]
        have := ih h'
        simp [akeys] at this
        simp [this]

/-- Whether a value is Python `None` (`value is None`). -/
def Value.isNone : Value → Bool
  | .none => true
  | _ => false

/-- Whether a value equals the empty string under Python `==` (`value == ''`).
For non-string operands Python `'' == v` is `False`; the materializing side
effect of `ListType.__eq__` on a still-raw wrapper is not modelled. -/
def Value.isEmptyStr : Value → Bool
  | .str "" => true
  | _ => false

/-- Python truthiness (`bool(value)`).  For the `ListType` wrapper `bool`
calls `__len__`, whose result equals the current element count. -/
def pyTruthy : Value → Bool
  | .none => false
  | .int n => n != 0
  | .float q => q != 0
  | .str s => s != ""
  | .bool b => b
  | .list xs => !xs.isEmpty
  | .dict kvs => !kvs.isEmpty
  | .docInstance kvs => !kvs.isEmpty
  | .listType _ _ xs => !xs.isEmpty

/-- Numeric view used by Python `==` across `bool`/`int`/`float`. -/
def numericView : Value → Option ℚ
  | .int n => some (n : ℚ)
  | .float q => some q
  | .bool b => some (if b then 1 else 0)
  | _ => Option.none

/-- Python `==` restricted to scalar operands, used for `choices` membership
(`value not in self.choices`).  `choices` collections in this engine are
scalar enumerations; container-valued comparisons are not modelled and
compare unequal. -/
def scalarBeq (a b : Value) : Bool :=
  match numericView a, numericView b with
  | some x, some y => x == y
  | _, _ =>
      match a, b with
      | .none, .none => true
      | .str s, .str t => s == t
      | _, _ => false

/-- Parse an optionally signed decimal digit string (`int(str)` after strip). -/
def parseDigits : List Char → Option ℕ
  | [] => Option.none
  | cs => go cs 0
where
  go : List Char → ℕ → Option ℕ
  | [], acc => some acc
  | c :: rest, acc =>
      if c.isDigit then go rest (acc * 10 + (c.toNat - 48)) else Option.none

/-- Python `int(s)` on a string: strip whitespace, optional sign, digits only
(`int('3.0')` and `int('a')` raise `ValueError`). -/
def pyIntParse (s : String) : Option ℤ :=
  let cs := s.data.dropWhile Char.isWhitespace |>.reverse.dropWhile Char.isWhitespace |>.reverse
  match cs with
  | '-' :: rest => (parseDigits rest).map (fun n => -(n : ℤ))
  | '+' :: rest => (parseDigits rest).map (fun n => (n : ℤ))
  | _ => (parseDigits cs).map (fun n => (n : ℤ))

/-- Truncation toward zero of an exact rational, the behavior of Python
`int(float)`.  `Int.div` truncates toward zero and `q.den > 0`. -/
def ratTrunc (q : ℚ) : ℤ := Int.tdiv q.num (q.den : ℤ)

/-- Python `int(value)`: `int`/`float`/`bool`/numeric-string accepted,
non-numeric strings raise `ValueError`, `None` and containers `TypeError`. -/
def pyIntCast : Value → Except PyError Value
  | .int n => .ok (.int n)
  | .float q => .ok (.int (ratTrunc q))
  | .bool b => .ok (.int (if b then 1 else 0))
  | .str s =>
      match pyIntParse s with
      | some n => .ok (.int n)
      | Option.none => .error .valueError
  | _ => .error .typeError

/-- Parse `float(s)`: optional sign, digits, optional fractional part.
Exact rational reading; exponent forms are not modelled. -/
def pyFloatParse (s : String) : Option ℚ :=
  let cs := s.data.dropWhile Char.isWhitespace |>.reverse.dropWhile Char.isWhitespace |>.reverse
  match cs with
  | '-' :: rest => (core rest).map Neg.neg
  | '+' :: rest => core rest
  | _ => core cs
where
  core (cs : List Char) : Option ℚ :=
    match cs.span Char.isDigit with
    | (intPart, []) => (parseDigits intPart).map (fun n => (n : ℚ))
    | (intPart, '.' :: fracPart) =>
        if fracPart.all Char.isDigit && (intPart ≠ [] || fracPart ≠ []) then
          match parseDigits (intPart ++ fracPart), intPart, fracPart with
          | some n, _, _ => some ((n : ℚ) / ((10 : ℚ) ^ fracPart.length))
          | Option.none, [], f =>
              (parseDigits f).map (fun n => (n : ℚ) / ((10 : ℚ) ^ f.length))
          | Option.none, i, [] => (parseDigits i).map (fun n => (n : ℚ))
          | _, _, _ => Option.none
        else Option.none
    | _ => Option.none

/-- Python `float(value)`. -/
def pyFloatCast : Value → Except PyError Value
  | .int n => .ok (.float (n : ℚ))
  | .float q => .ok (.float q)
  | .bool b => .ok (.float (if b then 1 else 0))
  | .str s =>
      match pyFloatParse s with
      | some q => .ok (.float q)
      | Option.none => .error .valueError
  | _ => .error .typeError

/-- Python `str(value)`.  Total; the renderings of floats and containers
approximate CPython's formatting (claims depend only on `str` being the
identity on strings and a fixed rendering elsewhere). -/
def pyStrOf : Value → String
  | .none => "None"
  | .int n => toString n
  | .float q => toString q
  | .str s => s
  | .bool b => if b then "True" else "False"
  | .list _ => "[...]"
  | .dict _ => "{...}"
  | .docInstance _ => "{...}"
  | .listType _ _ _ => "[...]"

/-- `CharField` coercion (`str`/`unicode`); never fails. -/
def pyStrCast (v : Value) : Except PyError Value := .ok (.str (pyStrOf v))

/-- `BooleanField` coercion (`bool`); never fails. -/
def pyBoolCast (v : Value) : Except PyError Value := .ok (.bool (pyTruthy v))

/-- `DictField` coercion with the default `dict_cls=dict`: mappings are
copied, non-mappings raise (`dict(x)` of a pair-list is not modelled). -/
def pyDictCast : Value → Except PyError Value
  | .dict kvs => .ok (.dict kvs)
  | .docInstance kvs => .ok (.dict kvs)
  | _ => .error .typeError

/-- A field default: `None`/a plain value, or a zero-argument producer.
`SimpleField._set_default_value` wraps mutable defaults in a `deepcopy`
lambda; `deepcopy` of a pure value is the value itself, so both shapes
resolve to a `Value`. -/
inductive Default where
  | val (v : Value)
  | producer (f : Unit → Value)

/-- The value produced by the `SimpleField.default` property (call if
callable, else return as stored). -/
def Default.resolve : Default → Value
  | .val v => v
  | .producer f => f ()

/-- The concrete `SimpleField` subclass of a field, with its type-specific
configuration. -/
inductive FieldKind where
  | simple
  | integer
  | float
  | char (maxLength : Option ℕ)
  | boolean
  | listOf (of : OfType)
  | docField (model : OfType)
  | dictField

/-- Whether a field is a `DocumentField` (`issubclass(type(field_obj),
DocumentField)` in `Document._prepare_fields`). -/
def FieldKind.isDoc : FieldKind → Bool
  | .docField _ => true
  | _ => false

/-- A `SimpleField` instance as configured at class-definition time.  `name`
is the effective key (`_verbose_name or _name`); in this embedding declared
and effective names coincide.  The validator chain stored in
`self.validators` is `userValidators ++ [required, choices]` (plus the
max-length check for `CharField`); the built-ins are modelled explicitly and
user validators as boolean predicates (a falsy result raises
`ValidationError`). -/
structure Field where
  kind : FieldKind
  name : String
  required : Bool := false
  choices : Option (List Value) := Option.none
  userValidators : List (Value → Bool) := []
  immutable : Bool := false
  default : Default := .val .none

/-- A `Document` subclass: its registered name, schema (`_fields`, in
declaration order, keyed by effective field name) and `Meta` options. -/
structure Model where
  name : String
  fields : List Field
  allowExtra : Bool := false
  omitMissed : Bool := false

/-- The process-wide `registry` (`weakref.WeakValueDictionary` in the source):
model name to model class.  Lifetime/weakness is not modelled; the registry
is passed explicitly to the operations that read it. -/
def Registry := List (String × Model)

/-- `registry.get(name)`. -/
def regLookup (reg : Registry) (n : String) : Option Model :=
  match reg with
  | [] => Option.none
  | (k, m) :: rest => if k = n then some m else regLookup rest n

/-- Schema lookup by effective field name (`cls._fields` access). -/
def findField (m : Model) (n : String) : Option Field :=
  m.fields.find? (fun f => f.name == n)

/-- Effective field names of a schema, in order. -/
def Model.fieldNames (m : Model) : List String := m.fields.map Field.name

/-! ## ListType (the `ListField` wrapper) -/

/-- Element coercion performed by `ListType.list` materialization:
`self._of(data, **kwargs)` when `of` is a `Document` subclass, else
`self._of(data)`.  `Document.__init__` accepts keyword arguments only, so the
positional call for a document element raises `TypeError`; a still-string
`of` is not callable, also `TypeError`. -/
def coerceElem (of : OfType) (v : Value) : Except PyError Value :=
  match of with
  | .pyInt => pyIntCast v
  | .pyFloat => pyFloatCast v
  | .pyStr => pyStrCast v
  | .pyBool => pyBoolCast v
  | .docClass _ => .error .typeError
  | .strName _ => .error .typeError

/-- Coerce every element of a raw sequence (the list comprehension in
`ListType.list`). -/
def coerceAll (of : OfType) : List Value → Except PyError (List Value)
  | [] => .ok []
  | v :: rest => do
      let w ← coerceElem of v
      let ws ← coerceAll of rest
      .ok (w :: ws)

/-- The state of a `ListType` wrapper: element type (`_of`), materialized
flag, current elements. -/
abbrev LT := OfType × Bool × List Value

/-- `ListType.__init__`: reject non-`MutableSequence` input with
`ValueError`; postpone coercion when `of` is a string name, else coerce every
element immediately (`self._list = None if isinstance(self._of, str) else
self.list`). -/
def ltInit (of : OfType) (v : Value) : Except PyError Value :=
  match v with
  | .list xs => ltInitSeq of xs
  | .listType _ _ xs => ltInitSeq of xs
  | _ => .error .valueError
where
  ltInitSeq (of : OfType) (xs : List Value) : Except PyError Value :=
    match of with
    | .strName s => .ok (.listType (.strName s) false xs)
    | _ => do
        let ys ← coerceAll of xs
        .ok (.listType of true ys)

/-- Resolution of a string `of` performed at the start of `ListType.list`
materialization: `self._of = registry.get(self._of)`, raising
`ModelNotFoundError` when the name was never registered; a non-string `of`
is left as is. -/
def ltResolveOf (reg : Registry) : OfType → Except PyError OfType
  | .strName n =>
      match regLookup reg n with
      | Option.none => .error .modelNotFoundError
      | some m => .ok (.docClass m.name)
  | of => .ok of

/-- The `ListType.list` property: on a raw wrapper, resolve a string `of`
through the registry and coerce every element; afterwards return the
materialized elements. -/
def ltMaterialize (reg : Registry) : LT → Except PyError LT
  | (of, true, xs) => .ok (of, true, xs)
  | (of, false, xs) => do
      let of2 ← ltResolveOf reg of
      let ys ← coerceAll of2 xs
      .ok (of2, true, ys)

/-! ## Field validation and coercion -/

/-- Run the user-supplied validator chain; a falsy validator result raises
`ValidationError` (`SimpleField.validate`). -/
def runUserValidators : List (Value → Bool) → Value → Except PyError Unit
  | [], _ => .ok ()
  | f :: rest, v =>
      if f v then runUserValidators rest v else .error .validationError

/-- `SimpleField._validate_required`: a required field rejects `None` and the
empty string with `FieldRequiredError`. -/
def requiredCheck (f : Field) (v : Value) : Except PyError Unit :=
  if f.required then
    if v.isNone then .error .fieldRequiredError
    else if v.isEmptyStr then .error .fieldRequiredError
    else .ok ()
  else .ok ()

/-- `SimpleField._validate_choices`: when a non-empty `choices` collection is
configured (`if self.choices:`), membership failure raises
`ValidationError`. -/
def choicesCheck (f : Field) (v : Value) : Except PyError Unit :=
  match f.choices with
  | Option.none => .ok ()
  | some cs =>
      if cs.isEmpty then .ok ()
      else if cs.any (fun c => scalarBeq c v) then .ok ()
      else .error .validationError

/-- `CharField.validate_max_length` (appended to the chain when
`max_length` is set): `if value and len(value) > max_length` raise. -/
def maxLenCheck (f : Field) (v : Value) : Except PyError Unit :=
  match f.kind with
  | .char (some limit) =>
      match v with
      | .str s => if s ≠ "" && s.length > limit then .error .validationError else .ok ()
      | _ => .ok ()
  | _ => .ok ()

/-- `SimpleField.validate`: run the chain `userValidators ++ [required,
choices]` (plus the `CharField` max-length validator) in order. -/
def validateF (f : Field) (v : Value) : Except PyError Unit := do
  runUserValidators f.userValidators v
  requiredCheck f v
  choicesCheck f v
  maxLenCheck f v

/-- `DocumentField._typecast`: resolve a string model name through the
registry (`ModelNotFoundError` when absent), then call `model(value or {})`.
The call passes the mapping positionally while `Document.__init__` accepts
keyword arguments only, so the constructor call itself raises `TypeError`
for every operand. -/
def docFieldCast (reg : Registry) (ref : OfType) (_v : Value) : Except PyError Value :=
  match ref with
  | .strName n =>
      match regLookup reg n with
      | Option.none => .error .modelNotFoundError
      | some _ => .error .typeError
  | _ => .error .typeError

/-- `_typecast` of the concrete field classes.  The generic
`SimpleField._typecast` skips the cast function when the value is `None`;
`ListField._typecast` instead wraps `value or []` in a `ListType` and
`DocumentField._typecast` always performs the (failing) constructor call. -/
def typecastF (reg : Registry) (f : Field) (v : Value) : Except PyError Value :=
  match f.kind with
  | .simple => .ok v
  | .integer => if v.isNone then .ok .none else pyIntCast v
  | .float => if v.isNone then .ok .none else pyFloatCast v
  | .char _ => if v.isNone then .ok .none else pyStrCast v
  | .boolean => if v.isNone then .ok .none else pyBoolCast v
  | .dictField => if v.isNone then .ok .none else pyDictCast v
  | .listOf of => ltInit of (if pyTruthy v then v else .list [])
  | .docField ref => docFieldCast reg ref v

/-- `SimpleField.__set_value__` without the instance store: coerce, then
validate, and return the value that is stored and handed back to
`_prepare_fields`. -/
def Field.setValueV (reg : Registry) (f : Field) (v : Value) : Except PyError Value := do
  let w ← typecastF reg f v
  validateF f w
  .ok w

/-! ## Document construction pipeline -/

/-- A constructed `Document` instance: `attrs` is `instance.__dict__`
(written by the descriptor's `__set_value__`), `items` the contents of the
underlying `dict` (populated from the prepared kwargs and by
`dict.__setitem__`). -/
structure DocInstance where
  attrs : List (String × Value)
  items : List (String × Value)
deriving Repr

/-- One iteration of the `Document._prepare_fields` loop for field `f`, given
`vin = kwargs.get(f.name)` as an explicit option: resolve the default, then
either set the provided value, set `{}` for a `DocumentField`, skip the field
when it resolved to `None` under `OMIT_MISSED_FIELDS` (still running its
validators), or set the resolved default.  Returns the stored value, or
`none` when the field was omitted. -/
def stepOf (reg : Registry) (omitMissed : Bool) (f : Field) (vin : Option Value) :
    Except PyError (Option Value) :=
  let fv := match vin with
    | some v => if v.isNone then f.default.resolve else v
    | Option.none => f.default.resolve
  if vin.isSome then (some ·) <$> f.setValueV reg fv
  else if f.kind.isDoc then (some ·) <$> f.setValueV reg (.dict [])
  else if fv.isNone && omitMissed then do
    validateF f fv
    .ok Option.none
  else (some ·) <$> f.setValueV reg fv

/-- The `Document._prepare_fields` loop: fold `stepOf` over the schema,
recording stored values both in the instance `__dict__` and in the working
kwargs (`kwargs[field_name] = val`). -/
def prepareFields (reg : Registry) (omitMissed : Bool) :
    List Field → List (String × Value) → List (String × Value) →
    Except PyError (List (String × Value) × List (String × Value))
  | [], attrs, kw => .ok (attrs, kw)
  | f :: rest, attrs, kw =>
      match stepOf reg omitMissed f (alookup kw f.name) with
      | .error e => .error e
      | .ok Option.none => prepareFields reg omitMissed rest attrs kw
      | .ok (some v) =>
          prepareFields reg omitMissed rest (aupdate attrs f.name v) (aupdate kw f.name v)

/-- Remove every occurrence of `pat` from `s`, scanning left to right without
overlap — Python `s.replace(pat, '')`.  Written with an explicit fuel
argument (any fuel at least `s.length` gives the fixed point) so that the
definition reduces structurally. -/
def removeAllFuel (pat : List Char) : ℕ → List Char → List Char
  | 0, s => s
  | _ + 1, [] => []
  | n + 1, c :: rest =>
      if pat ≠ [] && pat.isPrefixOf (c :: rest) then
        removeAllFuel pat n ((c :: rest).drop pat.length)
      else c :: removeAllFuel pat n rest

/-- Python `k.replace(prot, '')` used by `Document._unprotect_fields`. -/
def strRemoveAll (pat s : String) : String :=
  String.mk (removeAllFuel pat.data s.data.length s.data)

/-- Python `k.startswith(p)`. -/
def strStartsWith (p s : String) : Bool := p.data.isPrefixOf s.data

/-- One iteration of the `Document._unprotect_fields` loop: keys starting
with `'<ClassName>_'` are stored under the key with every occurrence of the
prefix removed; other keys are stored under themselves unless already
present (protected and decoded values are not overridden). -/
def unprotectStep (prot : String) (acc : List (String × Value)) (kv : String × Value) :
    List (String × Value) :=
  if strStartsWith prot kv.1 then aupdate acc (strRemoveAll prot kv.1) kv.2
  else if (alookup acc kv.1).isSome then acc
  else acc ++ [kv]

/-- `Document._unprotect_fields`: reverse of the `create()` factory's field
protection, run on every construction. -/
def unprotectFields (clsName : String) (kwargs : List (String × Value)) :
    List (String × Value) :=
  kwargs.foldl (unprotectStep (clsName ++ "_")) []

/-- `Document._clean_kwargs`: with `ALLOW_EXTRA_FIELDS` off, drop every key
not present in the schema; otherwise keep everything. -/
def cleanKwargs (m : Model) (kw : List (String × Value)) : List (String × Value) :=
  if m.allowExtra then kw else kw.filter (fun kv => (findField m kv.1).isSome)

/-- The pipeline of `Document.__init__` after input cleaning. -/
def constructPrepared (reg : Registry) (m : Model) (kw : List (String × Value)) :
    Except PyError DocInstance := do
  let (attrs, items) ← prepareFields reg m.omitMissed m.fields [] kw
  .ok ⟨attrs, items⟩

/-- `Document.__init__(**kwargs)`: unprotect, clean, prepare fields, then
initialize the `dict` base with the prepared kwargs.  The
`_post_init_validation` hook pass is a no-op for models that declare no
`validate_<field>` methods, which is the case for every model in this
development. -/
def Document.construct (reg : Registry) (m : Model) (kwargs : List (String × Value)) :
    Except PyError DocInstance :=
  constructPrepared reg m (cleanKwargs m (unprotectFields m.name kwargs))

/-- `SimpleField.__init__`: record the configuration and store the default
value as given (`_set_default_value` only wraps mutable defaults in a
`deepcopy` producer).  The default is not passed through the coercion or
validation chain here; its only uses are at document-construction time.
The source's init-time failures (`choices` of a non-collection type,
`validators` of a non-collection type, a non-callable validator) are type
errors that cannot be expressed against this well-typed signature. -/
def SimpleField.init (kind : FieldKind) (default : Default) (required : Bool)
    (choices : Option (List Value)) (validators : List (Value → Bool))
    (immutable : Bool) : Field :=
  { kind := kind, name := "", required := required, choices := choices,
    userValidators := validators, immutable := immutable, default := default }

/-! ## Instance access (descriptor protocol and mapping protocol) -/

/-- Attribute read on an instance: a schema field goes through the
`SimpleField.__get__` descriptor (`instance.__dict__.get(self.name)`, hence
`None` when never stored); a non-field name falls back to the instance
`__dict__` and then to `AttributeDict.__getattr__` (the mapping item). -/
def attrGet (m : Model) (d : DocInstance) (n : String) : Value :=
  match findField m n with
  | some f => (alookup d.attrs f.name).getD .none
  | Option.none =>
      match alookup d.attrs n with
      | some v => v
      | Option.none => (alookup d.items n).getD .none

/-- Mapping item read (`instance[n]`); `Option.none` models `KeyError`. -/
def itemGet (d : DocInstance) (n : String) : Option Value := alookup d.items n

/-- Attribute write, `AttributeDict.__setattr__`: first
`object.__setattr__`, which for a schema field dispatches to the
`SimpleField.__set__` descriptor — raising `ImmutableFieldError` on an
immutable field before anything is stored, else coercing/validating and
writing `instance.__dict__[self.name]` — and then `self[key] =
super().__getattribute__(key)`, copying the freshly stored attribute into
the mapping item.  An exception leaves the instance unchanged.  (The
`AttributeDict` re-wrapping of plain dict values is the identity on the
underlying mapping and is not modelled.) -/
def Document.setattr (reg : Registry) (m : Model) (d : DocInstance) (n : String) (v : Value) :
    Except PyError DocInstance :=
  match findField m n with
  | some f =>
      if f.immutable then .error .immutableFieldError
      else do
        let w ← f.setValueV reg v
        let attrs2 := aupdate d.attrs f.name w
        .ok ⟨attrs2, aupdate d.items n ((alookup attrs2 f.name).getD .none)⟩
  | Option.none => .ok ⟨aupdate d.attrs n v, aupdate d.items n v⟩

/-- Mapping item write: neither `Document` nor `AttributeDict` overrides
`__setitem__`, so `instance[n] = v` is the raw `dict.__setitem__` — no
descriptor, no coercion, no validation, and no update of
`instance.__dict__`. -/
def Document.setitem (d : DocInstance) (n : String) (v : Value) : DocInstance :=
  ⟨d.attrs, aupdate d.items n v⟩

/-- A post-construction write, by attribute or by mapping item. -/
inductive Write where
  | attr (n : String) (v : Value)
  | item (n : String) (v : Value)

/-- Whether a write is attribute-style. -/
def Write.isAttr : Write → Bool
  | .attr _ _ => true
  | _ => false

/-- Apply one write; a raised exception leaves the instance unchanged (the
source validates and checks immutability before storing anything). -/
def applyWrite (reg : Registry) (m : Model) (d : DocInstance) : Write → DocInstance
  | .attr n v =>
      match Document.setattr reg m d n v with
      | .ok d' => d'
      | .error _ => d
  | .item n v => Document.setitem d n v

/-- Apply a sequence of writes in order. -/
def applyWrites (reg : Registry) (m : Model) (d : DocInstance) : List Write → DocInstance
  | [] => d
  | w :: ws => applyWrites reg m (applyWrite reg m d w) ws

/-! ## ListType mutation -/

/-- Coercion performed by `ListType.insert`: a `Document` value is passed as
`self._of(data=value)` — a keyword call, which for a document element type
builds a fresh instance from the kwargs `{'data': value}` and for a callable
like `int` raises `TypeError` (unexpected keyword argument); any other value
is passed positionally, as in materialization. -/
def insertCoerce (reg : Registry) (of : OfType) (v : Value) : Except PyError Value :=
  match v with
  | .docInstance _ =>
      match of with
      | .docClass n =>
          match regLookup reg n with
          | some m2 =>
              (fun d => Value.docInstance d.items) <$> Document.construct reg m2 [("data", v)]
          | Option.none => .error .modelNotFoundError
      | _ => .error .typeError
  | _ => coerceElem of v

/-- Python `list.insert`: the index is clamped to the list length (negative
indices are not modelled; the claims use non-negative positions). -/
def pyListInsert (xs : List Value) (i : ℕ) (v : Value) : List Value :=
  let j := min i xs.length
  xs.take j ++ v :: xs.drop j

/-- `ListType.insert` as a state transformer: coerce the value first, then
materialize (`self.list`), then splice.  On an exception the wrapper's
elements are untouched. -/
def ltInsertMut (reg : Registry) (lt : LT) (i : ℕ) (v : Value) : LT × Option PyError :=
  match insertCoerce reg lt.1 v with
  | .error e => (lt, some e)
  | .ok cv =>
      match ltMaterialize reg lt with
      | .error e => (lt, some e)
      | .ok (of, _, ys) => ((of, true, pyListInsert ys i cv), Option.none)

/-- `MutableSequence.append`: `self.insert(len(self), value)`; the length
query materializes first. -/
def ltAppendMut (reg : Registry) (lt : LT) (v : Value) : LT × Option PyError :=
  match ltMaterialize reg lt with
  | .error e => (lt, some e)
  | .ok (of, _, ys) => ltInsertMut reg (of, true, ys) ys.length v

/-- `ListType.__setitem__`: `self.list[index] = value` — materialize, then
store the value as given, with no element coercion. -/
def ltSetItemMut (reg : Registry) (lt : LT) (i : ℕ) (v : Value) : LT × Option PyError :=
  match ltMaterialize reg lt with
  | .error e => (lt, some e)
  | .ok (of, _, ys) =>
      if i < ys.length then ((of, true, ys.set i v), Option.none)
      else ((of, true, ys), some .indexError)

/-! ## Export to plain data (`as_dict`) -/

mutual
/-- Modelled from the spec: the recursive plain-data conversion of
`asPlainData` applied to one value — nested instances become plain mappings,
wrapped collections become plain sequences (materializing a still-raw
wrapper), scalars pass through.  The source's `as_dict` is referenced by
`DocumentField.to_python`, `ListField.to_python` and the test suite but its
definition is not present under `src/`. -/
def plainify (reg : Registry) : Value → Except PyError Value
  | .none => .ok .none
  | .int n => .ok (.int n)
  | .float q => .ok (.float q)
  | .str s => .ok (.str s)
  | .bool b => .ok (.bool b)
  | .list xs => (Value.list ·) <$> plainifyList reg xs
  | .dict kvs => (Value.dict ·) <$> plainifyPairs reg kvs
  | .docInstance kvs => (Value.dict ·) <$> plainifyPairs reg kvs
  | .listType _ true xs => (Value.list ·) <$> plainifyList reg xs
  | .listType of false xs => do
      let (_, _, ys) ← ltMaterialize reg (of, false, xs)
      .ok (.list ys)
termination_by v => sizeOf v

/-- Plain-data conversion of a list of values. -/
def plainifyList (reg : Registry) : List Value → Except PyError (List Value)
  | [] => .ok []
  | v :: rest => do
      let w ← plainify reg v
      let ws ← plainifyList reg rest
      .ok (w :: ws)
termination_by xs => sizeOf xs

/-- Plain-data conversion of the values of an association list. -/
def plainifyPairs (reg : Registry) :
    List (String × Value) → Except PyError (List (String × Value))
  | [] => .ok []
  | (k, v) :: rest => do
      let w ← plainify reg v
      let ws ← plainifyPairs reg rest
      .ok ((k, w) :: ws)
termination_by kvs => sizeOf kvs
end

/-- `item.as_dict()` applied to each element of a materialized list of
document instances (`ListField.to_python`, document branch); a non-document
element has no `as_dict` attribute. -/
def itemsAsDict (reg : Registry) : List Value → Except PyError (List Value)
  | [] => .ok []
  | .docInstance kvs :: rest => do
      let w ← plainifyPairs reg kvs
      let ws ← itemsAsDict reg rest
      .ok (.dict w :: ws)
  | _ :: _ => .error .typeError

/-- `to_python` of the concrete field classes, used by the export:
`ListField.to_python` iterates the wrapper (materializing it) and, when the
field's `of` has an `as_dict` attribute — exactly when it is a document
class, under the spec-modelled `as_dict` — exports each element as a dict;
`DocumentField.to_python` is `value.as_dict()`; everything else is the
identity. -/
def Field.toPython (reg : Registry) (f : Field) (v : Value) : Except PyError Value :=
  match f.kind with
  | .listOf fieldOf =>
      match v with
      | .listType of b xs => do
          let (_, _, ys) ← ltMaterialize reg (of, b, xs)
          match fieldOf with
          | .docClass _ => (Value.list ·) <$> itemsAsDict reg ys
          | _ => .ok (.list ys)
      | _ => .error .typeError
  | .docField _ =>
      match v with
      | .docInstance kvs => (Value.dict ·) <$> plainifyPairs reg kvs
      | _ => .error .typeError
  | _ => .ok v

/-- Conversion of the instance items for the export: schema fields through
their `to_python`, retained extra values through the recursive plain-data
conversion. -/
def convItems (reg : Registry) (m : Model) :
    List (String × Value) → Except PyError (List (String × Value))
  | [] => .ok []
  | (k, v) :: rest => do
      let w ← (match findField m k with
               | some f => f.toPython reg v
               | Option.none => plainify reg v)
      let ws ← convItems reg m rest
      .ok ((k, w) :: ws)

/-- Modelled from the spec: `asPlainData` / `as_dict` — recursively convert
the instance into a plain mapping usable by a generic serializer.  The
definition of `as_dict` itself is absent from `src/` (only its callers,
`DocumentField.to_python`, `ListField.to_python` and the tests, are
present); this follows the spec's description together with the per-field
`to_python` methods that are in the source. -/
def Document.asDict (reg : Registry) (m : Model) (d : DocInstance) :
    Except PyError (List (String × Value)) :=
  convItems reg m d.items

/-! ## Concrete models used by the claim theorems -/

/-- A model with a single required `CharField` and no default. -/
def c1Model : Model :=
  { name := "User",
    fields := [{ kind := .char Option.none, name := "login", required := true }] }

/-- The same schema with `OMIT_MISSED_FIELDS` enabled. -/
def c1ModelOmit : Model := { c1Model with omitMissed := true }

/-- A model with a single untyped `SimpleField`. -/
def c2Model : Model :=
  { name := "M", fields := [{ kind := .simple, name := "f" }] }

/-- An `IntegerField` declared with the non-callable, non-numeric default
`'a'` (the field construction of `IntegerField(default='a')`). -/
def c3Field : Field :=
  SimpleField.init .integer (.val (.str "a")) false Option.none [] false

/-- The class `A` from the source's own test
`test_validation_with_default_values`: `id = IntegerField(default='a')`. -/
def c3Model : Model := { name := "A", fields := [{ c3Field with name := "id" }] }

/-- The accepted variant: `id = IntegerField(default='1')`. -/
def c3ModelGood : Model :=
  { name := "B", fields := [{ kind := .integer, name := "id", default := .val (.str "1") }] }

/-- A model with `tags = ListField(of=int)`. -/
def c5Model : Model :=
  { name := "Post", fields := [{ kind := .listOf .pyInt, name := "tags" }] }

/-- A materialized int-list wrapper holding `[1, 2, 3]`. -/
def c5LT : LT := (.pyInt, true, [.int 1, .int 2, .int 3])

/-- An immutable `IntegerField` under `OMIT_MISSED_FIELDS`, so that
construction from `{}` stores no value at all for the field. -/
def c7Field : Field := { kind := .integer, name := "sid", immutable := true }

/-- The owning model of `c7Field`. -/
def c7Model : Model := { name := "Sys", fields := [c7Field], omitMissed := true }

/-- The self-referential model `User(friends=ListField(of='User'))`. -/
def c8User : Model :=
  { name := "User", fields := [{ kind := .listOf (.strName "User"), name := "friends" }] }

/-- A registry in which `User` has been registered (class definition
completed). -/
def c8Reg : Registry := [("User", c8User)]

/-- A model with a nested-document field and no default. -/
def c9DocModel : Model :=
  { name := "Outer", fields := [{ kind := .docField (.docClass "X"), name := "sub" }] }

/-- The `DocumentField` of `c9DocModel`. -/
def c9DocField : Field := { kind := .docField (.docClass "X"), name := "sub" }

/-- A model with a list field and no default. -/
def c9ListModel : Model :=
  { name := "P", fields := [{ kind := .listOf .pyStr, name := "tags" }] }

/-- A model with a mapping (`DictField`) field and no default. -/
def c9DictModel : Model :=
  { name := "U", fields := [{ kind := .dictField, name := "attrs" }] }

/-- A model named `C` with one field `x`, for the key-protection claim. -/
def c10Model : Model := { name := "C", fields := [{ kind := .simple, name := "x" }] }

/-! ## Claim C1 -/

/-- C1: on a schema with one required field and no default, `construct({})`
fails with `FieldRequiredError`, `construct({field: ''})` fails with
`FieldRequiredError`, `construct({field: 'x'})` succeeds, and with
`OMIT_MISSED_FIELDS` enabled the required check still runs for the omitted
field, so `construct({})` still fails. -/
theorem c1_required_field_check :
    Document.construct [] c1Model [] = .error .fieldRequiredError ∧
    Document.construct [] c1Model [("login", .str "")] = .error .fieldRequiredError ∧
    Document.construct [] c1Model [("login", .str "x")] =
      .ok ⟨[("login", .str "x")], [("login", .str "x")]⟩ ∧
    Document.construct [] c1ModelOmit [] = .error .fieldRequiredError :=
  ⟨rfl, rfl, rfl, rfl⟩

/-! ## Claim C2 (counterexample) -/

/-- C2 counterexample: after constructing `{f: 'x'}`, the raw mapping write
`d['f'] = 'y'` goes through `dict.__setitem__` only — the descriptor storage
(`instance.__dict__`) is not updated, so the attribute read still yields
`'x'` while the item read yields `'y'`.  Attribute and key access are not
equivalent after item writes. -/
theorem c2_item_write_breaks_equivalence :
    Document.construct [] c2Model [("f", .str "x")] =
      .ok ⟨[("f", .str "x")], [("f", .str "x")]⟩ ∧
    attrGet c2Model (Document.setitem ⟨[("f", .str "x")], [("f", .str "x")]⟩ "f" (.str "y")) "f"
      = .str "x" ∧
    itemGet (Document.setitem ⟨[("f", .str "x")], [("f", .str "x")]⟩ "f" (.str "y")) "f"
      = some (.str "y") ∧
    Value.str "x" ≠ Value.str "y" :=
  ⟨rfl, rfl, rfl, by intro h; injection h with h2; exact absurd h2 (by decide)⟩

/-! ## Claim C3 (counterexample) -/

/-- C3 counterexample: constructing `IntegerField(default='a')` raises no
error — the field object is produced with the default stored verbatim and
unvalidated — and the `ValueError` from coercing `'a'` surfaces only at the
first construction of the owning model, refuting "raised at
field-construction (class-definition) time, before any model instance
exists". -/
theorem c3_bad_default_accepted_at_field_construction :
    c3Field.default = .val (.str "a") ∧
    c3Field.kind = .integer ∧
    Document.construct [] c3Model [] = .error .valueError :=
  ⟨rfl, rfl, rfl⟩

/-- C3 amended: `SimpleField.__init__` stores its configuration — including
any non-callable default — verbatim, without running the coercion/validation
chain on it, so a badly-typed default is accepted at class-definition time;
the failure is deferred to the first model construction that resolves the
default (`ValueError` here), while a coercible default like `'1'` is forced
at that point (`IntegerField(default='1')` yields `1`). -/
theorem c3_default_validation_deferred :
    (∀ (k : FieldKind) (d : Default) (r : Bool) (c : Option (List Value))
        (vs : List (Value → Bool)) (i : Bool),
      SimpleField.init k d r c vs i =
        { kind := k, name := "", required := r, choices := c,
          userValidators := vs, immutable := i, default := d }) ∧
    Document.construct [] c3Model [] = .error .valueError ∧
    Document.construct [] c3ModelGood [] = .ok ⟨[("id", .int 1)], [("id", .int 1)]⟩ :=
  ⟨fun _ _ _ _ _ _ => rfl, rfl, rfl⟩

/-! ## Claim C5 -/

/-- C5: `ListField(of=int)` constructed from `['1', 2, 3.0]` materializes
`[1, 2, 3]` (also end-to-end through document construction), and appending
the non-numeric string `'abc'` fails with `ValueError` — a
"ValidationError"-kind failure in the spec's taxonomy — leaving the stored
elements unchanged. -/
theorem c5_list_field_materialization :
    ltInit .pyInt (.list [.str "1", .int 2, .float 3]) =
      .ok (.listType .pyInt true [.int 1, .int 2, .int 3]) ∧
    Document.construct [] c5Model [("tags", .list [.str "1", .int 2, .float 3])] =
      .ok ⟨[("tags", .listType .pyInt true [.int 1, .int 2, .int 3])],
           [("tags", .listType .pyInt true [.int 1, .int 2, .int 3])]⟩ ∧
    ltAppendMut [] c5LT (.str "abc") = (c5LT, some .valueError) ∧
    PyError.valueError.isValidationKind = true :=
  ⟨rfl, rfl, rfl, rfl⟩

/-! ## Claim C6 (counterexample) -/

/-- C6 counterexample: `ListType.__setitem__` stores the assigned value as
given — `lst[0] = '9'` on an int list leaves the string `'9'` in place, with
no coercion to the element type — refuting "every element introduced by any
mutation (including `__setitem__`) is coerced to T before it is stored". -/
theorem c6_setitem_skips_coercion :
    ltSetItemMut [] (.pyInt, true, [.int 1, .int 2]) 0 (.str "9") =
      ((.pyInt, true, [.str "9", .int 2]), Option.none) ∧
    (∀ n : ℤ, Value.str "9" ≠ Value.int n) :=
  ⟨rfl, fun _ h => Value.noConfusion h⟩

/-! ## Claim C8 (the code at the claim's inputs) -/

/-- C8: string model names are resolved lazily — with an empty registry the
self-referential model still constructs (no lookup at class-definition or
init time, the wrapper stays raw) — and materializing with a never-registered
name fails with `ModelNotFoundError`; but once `User` is registered,
materializing a list that contains a `User` instance raises `TypeError`,
because `ListType.list` passes each element positionally to
`Document.__init__`, which accepts keyword arguments only.  The source's own
test (`test_list_of_self`) expects such instances to be accepted. -/
theorem c8_forward_reference_code_bug :
    Document.construct [] c8User [] =
      .ok ⟨[("friends", .listType (.strName "User") false [])],
           [("friends", .listType (.strName "User") false [])]⟩ ∧
    ltMaterialize [] (.strName "User", false, []) = .error .modelNotFoundError ∧
    ltMaterialize c8Reg (.strName "User", false, [.docInstance []]) = .error .typeError ∧
    ltMaterialize c8Reg (.strName "User", false, [.dict []]) = .error .typeError :=
  ⟨rfl, rfl, rfl, rfl⟩

/-! ## Claim C9 -/

/-- C9 counterexample: a `DictField` absent from the input with no declared
default is stored as `None`, not as an empty mapping — `SimpleField._typecast`
skips the `dict` cast for `None` — refuting "the constructed instance maps
that field to an empty mapping, never null". -/
theorem c9_dict_field_absent_is_none :
    Document.construct [] c9DictModel [] = .ok ⟨[("attrs", .none)], [("attrs", .none)]⟩ :=
  rfl

/-- C9 amended: for a `ListField` absent from input, `ListField._typecast`
wraps `value or []`, so the instance maps the field to an empty list wrapper;
for an absent `DocumentField`, `_prepare_fields` does invoke Set with an
empty mapping, but the nested constructor call is positional into a
keyword-only `__init__`, so construction fails with `TypeError` instead of
producing an empty document; for an absent `DictField` with no default the
field is stored as `None`, not as an empty mapping. -/
theorem c9_absent_container_fields :
    Document.construct [] c9ListModel [] =
      .ok ⟨[("tags", .listType .pyStr true [])], [("tags", .listType .pyStr true [])]⟩ ∧
    stepOf [] false c9DocField Option.none =
      (some ·) <$> Field.setValueV [] c9DocField (.dict []) ∧
    Document.construct [] c9DocModel [] = .error .typeError ∧
    Document.construct [] c9DictModel [] = .ok ⟨[("attrs", .none)], [("attrs", .none)]⟩ :=
  ⟨rfl, rfl, rfl, rfl⟩

/-! ## Claim C7 -/

/-- Reduction of `Except` bind on an error. -/
theorem exceptBind_err {α β : Type} (e : PyError) (f : α → Except PyError β) :
    (Except.error e >>= f) = Except.error e := rfl

/-- Reduction of `Except` bind on a success. -/
theorem exceptBind_ok {α β : Type} (a : α) (f : α → Except PyError β) :
    (Except.ok a >>= f) = f a := rfl

/-- Coercion through `pyIntCast` never raises `ImmutableFieldError`. -/
theorem pyIntCast_ne_imm (v : Value) : pyIntCast v ≠ .error .immutableFieldError := by
  unfold pyIntCast
  split <;> try simp
  split <;> simp

/-- Coercion through `pyFloatCast` never raises `ImmutableFieldError`. -/
theorem pyFloatCast_ne_imm (v : Value) : pyFloatCast v ≠ .error .immutableFieldError := by
  unfold pyFloatCast
  split <;> try simp
  split <;> simp

/-- Element coercion never raises `ImmutableFieldError`. -/
theorem coerceElem_ne_imm (of : OfType) (v : Value) :
    coerceElem of v ≠ .error .immutableFieldError := by
  cases of with
  | pyInt => exact pyIntCast_ne_imm v
  | pyFloat => exact pyFloatCast_ne_imm v
  | pyStr => simp [coerceElem, pyStrCast]
  | pyBool => simp [coerceElem, pyBoolCast]
  | docClass n => simp [coerceElem]
  | strName n => simp [coerceElem]

/-- Coercing a whole sequence never raises `ImmutableFieldError`. -/
theorem coerceAll_ne_imm (of : OfType) (xs : List Value) :
    coerceAll of xs ≠ .error .immutableFieldError := by
  induction xs with
  | nil => simp [coerceAll]
  | cons v rest ih =>
      simp only [coerceAll]
      cases hv : coerceElem of v with
      | error e =>
          intro h
          injection h with h2
          rw [h2] at hv
          exact coerceElem_ne_imm of v hv
      | ok w =>
          simp only [exceptBind_ok]
          cases hr : coerceAll of rest with
          | error e =>
              intro h
              injection h with h2
              rw [h2] at hr
              exact ih hr
          | ok ws => intro h; injection h

/-- `ListType` construction never raises `ImmutableFieldError`. -/
theorem ltInit_ne_imm (of : OfType) (v : Value) :
    ltInit of v ≠ .error .immutableFieldError := by
  have aux : ∀ (o : OfType) (xs : List Value),
      ((do
          let ys ← coerceAll o xs
          Except.ok (Value.listType o true ys)) : Except PyError Value) ≠
        .error .immutableFieldError := by
    intro o xs
    cases hc : coerceAll o xs with
    | error e =>
        intro h
        injection h with h2
        rw [h2] at hc
        exact coerceAll_ne_imm o xs hc
    | ok ws => intro h; injection h
  have seqCase : ∀ xs, ltInit.ltInitSeq of xs ≠ .error .immutableFieldError := by
    intro xs
    cases of <;> simp only [ltInit.ltInitSeq] <;> first | exact aux _ xs | simp
  cases v <;> simp only [ltInit] <;> first | exact seqCase _ | simp

/-- `DocumentField` coercion never raises `ImmutableFieldError`. -/
theorem docFieldCast_ne_imm (reg : Registry) (ref : OfType) (v : Value) :
    docFieldCast reg ref v ≠ .error .immutableFieldError := by
  unfold docFieldCast
  split <;> try simp
  split <;> simp

/-- Field coercion never raises `ImmutableFieldError`. -/
theorem typecastF_ne_imm (reg : Registry) (f : Field) (v : Value) :
    typecastF reg f v ≠ .error .immutableFieldError := by
  cases hk : f.kind <;> simp only [typecastF, hk]
  case simple => simp
  case integer =>
      cases hn : v.isNone <;> simp only [Bool.false_eq_true, if_true, if_false]
      · exact pyIntCast_ne_imm v
      · simp
  case float =>
      cases hn : v.isNone <;> simp only [Bool.false_eq_true, if_true, if_false]
      · exact pyFloatCast_ne_imm v
      · simp
  case char ml => cases hn : v.isNone <;> simp [pyStrCast]
  case boolean => cases hn : v.isNone <;> simp [pyBoolCast]
  case dictField =>
      cases hn : v.isNone <;> simp only [Bool.false_eq_true, if_true, if_false]
      · unfold pyDictCast; split <;> simp
      · simp
  case listOf of => exact ltInit_ne_imm of _
  case docField ref => exact docFieldCast_ne_imm reg ref v

/-- The user-validator chain never raises `ImmutableFieldError`. -/
theorem runUserValidators_ne_imm (vs : List (Value → Bool)) (v : Value) :
    runUserValidators vs v ≠ .error .immutableFieldError := by
  induction vs with
  | nil => simp [runUserValidators]
  | cons f rest ih =>
      simp only [runUserValidators]
      cases hf : f v <;> simp only [Bool.false_eq_true, if_true, if_false]
      · simp
      · exact ih

/-- `_validate_required` never raises `ImmutableFieldError`. -/
theorem requiredCheck_ne_imm (f : Field) (v : Value) :
    requiredCheck f v ≠ .error .immutableFieldError := by
  unfold requiredCheck
  split_ifs <;> simp

/-- `_validate_choices` never raises `ImmutableFieldError`. -/
theorem choicesCheck_ne_imm (f : Field) (v : Value) :
    choicesCheck f v ≠ .error .immutableFieldError := by
  unfold choicesCheck
  split
  · simp
  · split_ifs <;> simp

/-- The max-length validator never raises `ImmutableFieldError`. -/
theorem maxLenCheck_ne_imm (f : Field) (v : Value) :
    maxLenCheck f v ≠ .error .immutableFieldError := by
  unfold maxLenCheck
  split
  · split
    · split_ifs <;> simp
    · simp
  · simp

/-- The full validation chain never raises `ImmutableFieldError`. -/
theorem validateF_ne_imm (f : Field) (v : Value) :
    validateF f v ≠ .error .immutableFieldError := by
  simp only [validateF]
  cases hu : runUserValidators f.userValidators v with
  | error e =>
      intro h
      injection h with h2
      rw [h2] at hu
      exact runUserValidators_ne_imm f.userValidators v hu
  | ok u =>
      simp only [exceptBind_ok]
      cases hr : requiredCheck f v with
      | error e =>
          intro h
          injection h with h2
          rw [h2] at hr
          exact requiredCheck_ne_imm f v hr
      | ok r =>
          simp only [exceptBind_ok]
          cases hc : choicesCheck f v with
          | error e =>
              intro h
              injection h with h2
              rw [h2] at hc
              exact choicesCheck_ne_imm f v hc
          | ok c =>
              simp only [exceptBind_ok]
              exact maxLenCheck_ne_imm f v

/-- `SimpleField.__set_value__` never raises `ImmutableFieldError`: the
immutability check lives exclusively in the `__set__` descriptor. -/
theorem setValueV_ne_imm (reg : Registry) (f : Field) (v : Value) :
    f.setValueV reg v ≠ .error .immutableFieldError := by
  simp only [Field.setValueV]
  cases ht : typecastF reg f v with
  | error e =>
      intro h
      injection h with h2
      rw [h2] at ht
      exact typecastF_ne_imm reg f v ht
  | ok w =>
      simp only [exceptBind_ok]
      cases hv : validateF f w with
      | error e =>
          intro h
          injection h with h2
          rw [h2] at hv
          exact validateF_ne_imm f w hv
      | ok u => intro h; injection h

/-- C7 counterexample: under `OMIT_MISSED_FIELDS`, constructing from `{}`
stores no value at all for the immutable field (`instance.__dict__` is
empty), yet the very first attribute write still raises
`ImmutableFieldError` — `SimpleField.__set__` checks only the `immutable`
flag, never whether a value was stored — refuting "a first write to an
immutable field for which no value was ever stored succeeds". -/
theorem c7_immutable_first_write_fails :
    Document.construct [] c7Model [] = .ok ⟨[], []⟩ ∧
    alookup (DocInstance.mk [] []).attrs "sid" = Option.none ∧
    Document.setattr [] c7Model ⟨[], []⟩ "sid" (.int 1) = .error .immutableFieldError :=
  ⟨rfl, rfl, rfl⟩

/-- C7 amended: an attribute-style write to a schema field raises
`ImmutableFieldError` if and only if the field is declared immutable — the
stored state of the instance plays no role, so even a first write to a
never-stored immutable field fails, while a write to a mutable field may
fail only with coercion/validation errors, never with
`ImmutableFieldError`. -/
theorem c7_immutable_write_iff (reg : Registry) (m : Model) (d : DocInstance)
    (n : String) (v : Value) (f : Field) (hf : findField m n = some f) :
    Document.setattr reg m d n v = .error .immutableFieldError ↔ f.immutable = true := by
  simp only [Document.setattr, hf]
  cases hi : f.immutable with
  | true => simp
  | false =>
      simp only [Bool.false_eq_true, if_false]
      constructor
      · intro h
        exfalso
        cases hs : f.setValueV reg v with
        | error e =>
            rw [hs] at h
            simp only [exceptBind_err] at h
            injection h with h2
            rw [h2] at hs
            exact setValueV_ne_imm reg f v hs
        | ok w =>
            rw [hs] at h
            simp only [exceptBind_ok] at h
            exact nomatch h
      · intro h
        exact absurd h (by simp)

/-- Witness for `c7_immutable_write_iff` at the concrete immutable field
`c7Field` of `c7Model`. -/
theorem c7_immutable_write_iff_witness :
    Document.setattr [] c7Model ⟨[], []⟩ "sid" (.int 5) = .error .immutableFieldError :=
  (c7_immutable_write_iff [] c7Model ⟨[], []⟩ "sid" (.int 5) c7Field rfl).mpr rfl

/-! ## Claim C6 (amended theorem) -/

/-- A successful materialization always yields a materialized wrapper. -/
theorem ltMaterialize_ok_flag (reg : Registry) (lt : LT) (of : OfType) (b : Bool)
    (ys : List Value) (h : ltMaterialize reg lt = .ok (of, b, ys)) : b = true := by
  obtain ⟨o1, b1, xs1⟩ := lt
  cases b1 with
  | true =>
      simp only [ltMaterialize] at h
      injection h with h2
      injection h2 with e1 e2
      injection e2 with e3 e4
      exact e3.symm
  | false =>
      simp only [ltMaterialize] at h
      cases ho : ltResolveOf reg o1 with
      | error e => rw [ho] at h; exact nomatch h
      | ok of2 =>
          rw [ho] at h
          simp only [exceptBind_ok] at h
          cases hca : coerceAll of2 xs1 with
          | error e => rw [hca] at h; exact nomatch h
          | ok ws =>
              rw [hca] at h
              simp only [exceptBind_ok] at h
              injection h with h2
              injection h2 with e1 e2
              injection e2 with e3 e4
              exact e3.symm

/-- Shape of a successful `ListType.insert`: the value is coerced through
`self._of` first and the coerced value is spliced into the materialized
list. -/
theorem ltInsertMut_ok_shape (reg : Registry) (lt lt2 : LT) (i : ℕ) (v : Value)
    (h : ltInsertMut reg lt i v = (lt2, Option.none)) :
    ∃ cv of ys, insertCoerce reg lt.1 v = .ok cv ∧
      ltMaterialize reg lt = .ok (of, true, ys) ∧
      lt2 = (of, true, pyListInsert ys i cv) := by
  simp only [ltInsertMut] at h
  cases hc : insertCoerce reg lt.1 v with
  | error e => rw [hc] at h; exact nomatch h
  | ok cv =>
      rw [hc] at h
      cases hm : ltMaterialize reg lt with
      | error e => rw [hm] at h; exact nomatch h
      | ok ltm =>
          obtain ⟨of, b, ys⟩ := ltm
          rw [hm] at h
          injection h with h1 _
          have hb : b = true := ltMaterialize_ok_flag reg lt of b ys hm
          subst hb
          exact ⟨cv, of, ys, rfl, rfl, h1.symm⟩

/-- Shape of a successful `MutableSequence.append` on a `ListType`. -/
theorem ltAppendMut_ok_shape (reg : Registry) (lt lt2 : LT) (v : Value)
    (h : ltAppendMut reg lt v = (lt2, Option.none)) :
    ∃ cv of ys, insertCoerce reg of v = .ok cv ∧
      ltMaterialize reg lt = .ok (of, true, ys) ∧
      lt2 = (of, true, pyListInsert ys ys.length cv) := by
  simp only [ltAppendMut] at h
  cases hm : ltMaterialize reg lt with
  | error e => rw [hm] at h; exact nomatch h
  | ok ltm =>
      obtain ⟨of, b, ys⟩ := ltm
      rw [hm] at h
      have hb : b = true := ltMaterialize_ok_flag reg lt of b ys hm
      subst hb
      obtain ⟨cv, of2, ys2, hc2, hm2, he2⟩ :=
        ltInsertMut_ok_shape reg (of, true, ys) lt2 ys.length v h
      simp only [ltMaterialize] at hm2
      injection hm2 with h3
      injection h3 with e1 e2
      injection e2 with e3 e4
      subst e1
      subst e4
      exact ⟨cv, of, ys, hc2, rfl, he2⟩

/-- C6 amended: the elements introduced by `append` and `insert` are coerced
to the element type before being stored (the coerced value is what gets
spliced into the materialized list), while `__setitem__` stores the assigned
value raw (see the counterexample), so the all-elements-typed invariant
holds only for append/insert mutations. -/
theorem c6_append_insert_coerce (reg : Registry) (lt lt2 lt3 : LT) (i : ℕ) (v w : Value)
    (hins : ltInsertMut reg lt i v = (lt2, Option.none))
    (happ : ltAppendMut reg lt w = (lt3, Option.none)) :
    (∃ cv of ys, insertCoerce reg lt.1 v = .ok cv ∧
      ltMaterialize reg lt = .ok (of, true, ys) ∧
      lt2 = (of, true, pyListInsert ys i cv)) ∧
    (∃ cw of ys, insertCoerce reg of w = .ok cw ∧
      ltMaterialize reg lt = .ok (of, true, ys) ∧
      lt3 = (of, true, pyListInsert ys ys.length cw)) :=
  ⟨ltInsertMut_ok_shape reg lt lt2 i v hins, ltAppendMut_ok_shape reg lt lt3 w happ⟩

/-- Witness for `c6_append_insert_coerce`: inserting `'7'` at position 0 and
appending `'8'` on a materialized int list both store coerced integers. -/
theorem c6_append_insert_coerce_witness :
    (∃ cv of ys, insertCoerce [] (OfType.pyInt, true, [Value.int 1]).1 (.str "7") = .ok cv ∧
      ltMaterialize [] (OfType.pyInt, true, [Value.int 1]) = .ok (of, true, ys) ∧
      ((OfType.pyInt, true, [Value.int 7, Value.int 1]) : LT) = (of, true, pyListInsert ys 0 cv)) ∧
    (∃ cw of ys, insertCoerce [] of (.str "8") = .ok cw ∧
      ltMaterialize [] (OfType.pyInt, true, [Value.int 1]) = .ok (of, true, ys) ∧
      ((OfType.pyInt, true, [Value.int 1, Value.int 8]) : LT) =
        (of, true, pyListInsert ys ys.length cw)) :=
  c6_append_insert_coerce [] (OfType.pyInt, true, [Value.int 1])
    (OfType.pyInt, true, [Value.int 7, Value.int 1])
    (OfType.pyInt, true, [Value.int 1, Value.int 8]) 0 (.str "7") (.str "8") rfl rfl

/-! ## Claim C2 (amended theorem) -/

/-- Reduction of `Except` map on a success. -/
theorem exceptMap_ok {α β : Type} (g : α → β) (a : α) :
    (g <$> (Except.ok a : Except PyError α)) = Except.ok (g a) := rfl

/-- A field can only be skipped (`OMIT_MISSED_FIELDS`) when it was absent
from the working kwargs. -/
theorem stepOf_ok_none (reg : Registry) (omitB : Bool) (f : Field) (vin : Option Value)
    (h : stepOf reg omitB f vin = .ok Option.none) : vin = Option.none := by
  cases vin with
  | none => rfl
  | some v =>
      exfalso
      simp only [stepOf, Option.isSome, if_true] at h
      cases hs : f.setValueV reg (if v.isNone = true then f.default.resolve else v) with
      | error e => rw [hs] at h; exact nomatch h
      | ok w => rw [hs] at h; simp only [exceptMap_ok] at h; injection h with h2; exact nomatch h2

/-- Through the `_prepare_fields` loop, a name that either already agrees
between the two stores or belongs to a still-pending field agrees at the
end: every stored field updates `instance.__dict__` and the working kwargs
with the same value, and an omitted field touches neither (its kwargs
binding being absent). -/
theorem prepareFields_agree (reg : Registry) (omitB : Bool) :
    ∀ (fields : List Field) (attrs kw A K : List (String × Value)) (n : String),
      prepareFields reg omitB fields attrs kw = .ok (A, K) →
      (alookup attrs n = alookup kw n ∨
        (n ∈ fields.map Field.name ∧ alookup attrs n = Option.none)) →
      alookup A n = alookup K n := by
  intro fields
  induction fields with
  | nil =>
      intro attrs kw A K n h hinv
      simp only [prepareFields] at h
      injection h with h2
      injection h2 with e1 e2
      subst e1
      subst e2
      rcases hinv with h | ⟨hmem, _⟩
      · exact h
      · exact absurd hmem (by simp)
  | cons f rest ih =>
      intro attrs kw A K n h hinv
      simp only [prepareFields] at h
      cases hs : stepOf reg omitB f (alookup kw f.name) with
      | error e => rw [hs] at h; exact nomatch h
      | ok o =>
          rw [hs] at h
          cases o with
          | none =>
              apply ih attrs kw A K n h
              have hvin : alookup kw f.name = Option.none :=
                stepOf_ok_none reg omitB f (alookup kw f.name) hs
              rcases hinv with hagree | ⟨hmem, hattrs⟩
              · exact Or.inl hagree
              · by_cases hn : n = f.name
                · subst hn
                  exact Or.inl (hattrs.trans hvin.symm)
                · have : n ∈ rest.map Field.name := by
                    rcases List.mem_cons.mp hmem with h1 | h1
                    · exact absurd h1 hn
                    · exact h1
                  exact Or.inr ⟨this, hattrs⟩
          | some v =>
              apply ih _ _ A K n h
              by_cases hn : n = f.name
              · subst hn
                exact Or.inl (by rw [alookup_aupdate_self, alookup_aupdate_self])
              · have hne : f.name ≠ n := fun he => hn he.symm
                rcases hinv with hagree | ⟨hmem, hattrs⟩
                · exact Or.inl (by
                    rw [alookup_aupdate_ne _ _ _ _ hne, alookup_aupdate_ne _ _ _ _ hne]
                    exact hagree)
                · have : n ∈ rest.map Field.name := by
                    rcases List.mem_cons.mp hmem with h1 | h1
                    · exact absurd h1 hn
                    · exact h1
                  exact Or.inr ⟨this, by
                    rw [alookup_aupdate_ne _ _ _ _ hne]
                    exact hattrs⟩

/-- After construction, the descriptor storage and the mapping storage agree
on every schema field name. -/
theorem construct_agree (reg : Registry) (m : Model) (r : List (String × Value))
    (d : DocInstance) (h : Document.construct reg m r = .ok d)
    (n : String) (hn : n ∈ m.fieldNames) :
    alookup d.attrs n = alookup d.items n := by
  unfold Document.construct constructPrepared at h
  cases hp : prepareFields reg m.omitMissed m.fields []
      (cleanKwargs m (unprotectFields m.name r)) with
  | error e => rw [hp] at h; exact nomatch h
  | ok p =>
      obtain ⟨A, K⟩ := p
      rw [hp] at h
      simp only [exceptBind_ok] at h
      injection h with h2
      subst h2
      exact prepareFields_agree reg m.omitMissed m.fields [] _ A K n hp
        (Or.inr ⟨by simpa [Model.fieldNames] using hn, rfl⟩)

/-- A schema lookup returns a field carrying the looked-up name. -/
theorem findField_name (m : Model) (n : String) (f : Field)
    (h : findField m n = some f) : f.name = n := by
  have := List.find?_some h
  exact eq_of_beq this

/-- Unfolding of an attribute write on a non-field name. -/
theorem setattr_nonfield (reg : Registry) (m : Model) (d : DocInstance) (n : String)
    (v : Value) (hf : findField m n = Option.none) :
    Document.setattr reg m d n v = .ok ⟨aupdate d.attrs n v, aupdate d.items n v⟩ := by
  unfold Document.setattr
  rw [hf]

/-- Unfolding of an attribute write on a schema field. -/
theorem setattr_field (reg : Registry) (m : Model) (d : DocInstance) (n : String)
    (v : Value) (f : Field) (hf : findField m n = some f) :
    Document.setattr reg m d n v =
      if f.immutable then .error .immutableFieldError
      else
        (f.setValueV reg v) >>= fun w =>
          .ok ⟨aupdate d.attrs f.name w,
               aupdate d.items n ((alookup (aupdate d.attrs f.name w) f.name).getD .none)⟩ := by
  unfold Document.setattr
  rw [hf]

/-- An attribute write preserves pointwise agreement of the two stores: the
descriptor stores the coerced value in `instance.__dict__` and
`AttributeDict.__setattr__` immediately copies that stored value into the
mapping item under the same key. -/
theorem setattr_preserves_agree (reg : Registry) (m : Model) (d : DocInstance)
    (n : String) (v : Value) (d' : DocInstance)
    (h : Document.setattr reg m d n v = .ok d') (k : String)
    (hagree : alookup d.attrs k = alookup d.items k) :
    alookup d'.attrs k = alookup d'.items k := by
  cases hf : findField m n with
  | none =>
      rw [setattr_nonfield reg m d n v hf] at h
      injection h with h2
      subst h2
      by_cases hk : n = k
      · subst hk
        rw [alookup_aupdate_self, alookup_aupdate_self]
      · rw [alookup_aupdate_ne _ _ _ _ hk, alookup_aupdate_ne _ _ _ _ hk]
        exact hagree
  | some f =>
      have hname : f.name = n := findField_name m n f hf
      rw [setattr_field reg m d n v f hf] at h
      cases hi : f.immutable with
      | true => rw [hi] at h; exact nomatch h
      | false =>
          rw [hi] at h
          simp only [Bool.false_eq_true, if_false] at h
          cases hs : f.setValueV reg v with
          | error e => rw [hs] at h; exact nomatch h
          | ok w =>
              rw [hs] at h
              simp only [exceptBind_ok] at h
              injection h with h2
              subst h2
              by_cases hk : n = k
              · subst hk
                rw [hname, alookup_aupdate_self, alookup_aupdate_self]
                rfl
              · rw [hname, alookup_aupdate_ne _ _ _ _ hk, alookup_aupdate_ne _ _ _ _ hk]
                exact hagree

/-- Any sequence of attribute-style writes preserves agreement of the two
stores at every name (an item-style write is the raw `dict.__setitem__` and
is excluded). -/
theorem applyWrites_attr_agree (reg : Registry) (m : Model) :
    ∀ (ws : List Write) (d : DocInstance),
      (∀ w ∈ ws, w.isAttr = true) →
      (∀ k, alookup d.attrs k = alookup d.items k →
        alookup (applyWrites reg m d ws).attrs k = alookup (applyWrites reg m d ws).items k) := by
  intro ws
  induction ws with
  | nil => intro d _ k hk; exact hk
  | cons w rest ih =>
      intro d hws k hk
      simp only [applyWrites]
      apply ih (applyWrite reg m d w) (fun w2 hw2 => hws w2 (List.mem_cons_of_mem w hw2)) k
      cases w with
      | attr n v =>
          simp only [applyWrite]
          cases hs : Document.setattr reg m d n v with
          | error e => exact hk
          | ok d2 => exact setattr_preserves_agree reg m d n v d2 hs k hk
      | item n v => exact absurd (hws (.item n v) (List.mem_cons_self _ _)) (by simp [Write.isAttr])

/-- The schema lookup succeeds for every schema field name. -/
theorem findField_exists_of_mem (m : Model) (n : String) (hn : n ∈ m.fieldNames) :
    ∃ f, findField m n = some f ∧ f.name = n := by
  obtain ⟨f, hf, hfn⟩ := List.mem_map.mp hn
  have : (findField m n).isSome := by
    rw [findField, List.find?_isSome]
    exact ⟨f, hf, by simpa using hfn⟩
  obtain ⟨g, hg⟩ := Option.isSome_iff_exists.mp this
  exact ⟨g, hg, findField_name m n g hg⟩

/-- C2 amended: after construction and after any sequence of attribute-style
writes, the descriptor storage (`instance.__dict__`) and the mapping storage
(the `dict` contents) carry identical bindings for every schema field name,
so whenever the field is present in the mapping, reading it as an attribute
and reading it as an item yield the same value.  Item-style writes
(`d[k] = v`) bypass the descriptor and can break the equivalence (see the
counterexample), as can reading an omitted field as an item (`KeyError`)
while the attribute read yields `None`. -/
theorem c2_attr_item_consistency (reg : Registry) (m : Model) (r : List (String × Value))
    (d0 : DocInstance) (hc : Document.construct reg m r = .ok d0)
    (ws : List Write) (hws : ∀ w ∈ ws, w.isAttr = true)
    (n : String) (hn : n ∈ m.fieldNames) :
    alookup (applyWrites reg m d0 ws).attrs n = alookup (applyWrites reg m d0 ws).items n ∧
    (∀ v, itemGet (applyWrites reg m d0 ws) n = some v →
      attrGet m (applyWrites reg m d0 ws) n = v) := by
  have hagree := applyWrites_attr_agree reg m ws d0 hws n (construct_agree reg m r d0 hc n hn)
  refine ⟨hagree, fun v hv => ?_⟩
  obtain ⟨f, hf, hfn⟩ := findField_exists_of_mem m n hn
  have hget : attrGet m (applyWrites reg m d0 ws) n =
      (alookup (applyWrites reg m d0 ws).attrs f.name).getD .none := by
    unfold attrGet
    rw [hf]
  rw [itemGet] at hv
  rw [hget, hfn, hagree, hv]
  rfl

/-- Witness for `c2_attr_item_consistency`: construct `{f: 'x'}` on the
one-field model, write `d.f = 'z'` by attribute, and observe both stores
agreeing on `'z'`. -/
theorem c2_attr_item_consistency_witness :
    alookup (applyWrites [] c2Model ⟨[("f", .str "x")], [("f", .str "x")]⟩
        [.attr "f" (.str "z")]).attrs "f" =
      alookup (applyWrites [] c2Model ⟨[("f", .str "x")], [("f", .str "x")]⟩
        [.attr "f" (.str "z")]).items "f" ∧
    (∀ v, itemGet (applyWrites [] c2Model ⟨[("f", .str "x")], [("f", .str "x")]⟩
        [.attr "f" (.str "z")]) "f" = some v →
      attrGet c2Model (applyWrites [] c2Model ⟨[("f", .str "x")], [("f", .str "x")]⟩
        [.attr "f" (.str "z")]) "f" = v) :=
  c2_attr_item_consistency [] c2Model [("f", .str "x")] ⟨[("f", .str "x")], [("f", .str "x")]⟩
    rfl [.attr "f" (.str "z")] (by intro w hw; simp at hw; subst hw; rfl) "f"
    (by simp [Model.fieldNames, c2Model])

/-! ## Claim C10 -/

/-- Lookup distributes over append when the key is absent on the left. -/
theorem alookup_append_of_none (xs ys : List (String × Value)) (k : String)
    (h : alookup xs k = Option.none) : alookup (xs ++ ys) k = alookup ys k := by
  induction xs with
  | nil => simp
  | cons hd tl ih =>
      obtain ⟨k0, v0⟩ := hd
      by_cases hk : k0 = k
      · subst hk; simp [alookup] at h
      · simp only [alookup, hk, if_false, List.cons_append] at h ⊢
        exact ih h

/-- Removal never lengthens the string. -/
theorem removeAllFuel_length_le (pat : List Char) :
    ∀ (n : ℕ) (s : List Char), (removeAllFuel pat n s).length ≤ s.length := by
  intro n
  induction n with
  | zero => intro s; simp [removeAllFuel]
  | succ n ih =>
      intro s
      cases s with
      | nil => simp [removeAllFuel]
      | cons c rest =>
          simp only [removeAllFuel]
          split
          · calc (removeAllFuel pat n ((c :: rest).drop pat.length)).length
                ≤ ((c :: rest).drop pat.length).length := ih _
              _ ≤ (c :: rest).length := by
                  rw [List.length_drop]
                  omega
          · simpa using Nat.succ_le_succ (ih rest)

/-- When the pattern is non-empty and matches at the head, removal strictly
shortens the string. -/
theorem removeAllFuel_length_lt (pat : List Char) (hne : pat ≠ []) (s : List Char)
    (hpfx : pat.isPrefixOf s = true) (n : ℕ) :
    (removeAllFuel pat (n + 1) s).length < s.length := by
  have hp : pat <+: s := List.isPrefixOf_iff_prefix.mp hpfx
  have hlen : pat.length ≤ s.length := hp.length_le
  have hpos : 0 < pat.length := List.length_pos.mpr hne
  cases s with
  | nil =>
      exfalso
      have : pat.length ≤ 0 := by simpa using hlen
      omega
  | cons c rest =>
      simp only [removeAllFuel, hne, hpfx, ne_eq, not_false_iff, Bool.and_self, if_true]
      calc (removeAllFuel pat n ((c :: rest).drop pat.length)).length
          ≤ ((c :: rest).drop pat.length).length := removeAllFuel_length_le pat n _
        _ = (c :: rest).length - pat.length := List.length_drop _ _
        _ < (c :: rest).length := by
            simp only [List.length_cons] at hlen ⊢
            omega

/-- Stripping a matching protection prefix genuinely renames the key. -/
theorem strRemoveAll_ne_self (clsName k : String)
    (h : strStartsWith (clsName ++ "_") k = true) :
    strRemoveAll (clsName ++ "_") k ≠ k := by
  intro he
  have hne : (clsName ++ "_").data ≠ [] := by
    rw [String.data_append]
    simp
  have hlen : (strRemoveAll (clsName ++ "_") k).length < k.length := by
    have h2 : (clsName ++ "_").data.isPrefixOf k.data = true := h
    cases hd : k.data with
    | nil =>
        exfalso
        have hp : (clsName ++ "_").data <+: k.data :=
          List.isPrefixOf_iff_prefix.mp h2
        rw [hd] at hp
        have hle := hp.length_le
        have hpos : 0 < (clsName ++ "_").data.length := List.length_pos.mpr hne
        simp only [List.length_nil] at hle
        omega
    | cons c rest =>
        show (String.mk (removeAllFuel (clsName ++ "_").data k.data.length k.data)).length
            < k.length
        have hlen1 : k.data.length = rest.length + 1 := by rw [hd]; simp
        rw [String.length, String.length, hlen1, hd]
        exact removeAllFuel_length_lt (clsName ++ "_").data hne (c :: rest)
          (by rw [hd] at h2; exact h2) rest.length
  rw [he] at hlen
  omega

/-- Through the `_unprotect_fields` loop, a key that no input key maps to is
absent from the result. -/
theorem unprotect_foldl_none (prot k : String) (hk : strStartsWith prot k = true) :
    ∀ (kwargs acc : List (String × Value)),
      alookup acc k = Option.none →
      (∀ p ∈ kwargs, strStartsWith prot p.1 = true → strRemoveAll prot p.1 ≠ k) →
      alookup (kwargs.foldl (unprotectStep prot) acc) k = Option.none := by
  intro kwargs
  induction kwargs with
  | nil => intro acc hacc _; exact hacc
  | cons p ps ih =>
      intro acc hacc hps
      simp only [List.foldl_cons]
      apply ih
      · unfold unprotectStep
        cases hsw : strStartsWith prot p.1 with
        | true =>
            simp only [if_true]
            exact (alookup_aupdate_ne _ _ _ _ (hps p (List.mem_cons_self _ _) hsw)).trans hacc
        | false =>
            simp only [Bool.false_eq_true, if_false]
            have hpk : p.1 ≠ k := by
              intro he
              rw [he] at hsw
              rw [hk] at hsw
              exact nomatch hsw
            cases hin : (alookup acc p.1).isSome with
            | true => simp only [if_true]; exact hacc
            | false =>
                simp only [Bool.false_eq_true, if_false]
                rw [alookup_append_of_none acc _ k hacc]
                simp [alookup, hpk]
      · intro q hq hq2
        exact hps q (List.mem_cons_of_mem p hq) hq2

/-- C10: `_unprotect_fields` runs on every construction (it is the first
step of `Document.__init__`, before cleaning and field binding); an input
key carrying the `'<ClassName>_'` protection prefix is renamed by removing
the prefix — `'C_x'` is treated as field `'x'`, end to end through
construction — the rename is never the identity, and provided no other input
key strips to the protected key itself, the original protected key is never
bound in the unprotected kwargs. -/
theorem c10_unprotect_on_every_init :
    (∀ (reg : Registry) (m : Model) (kw : List (String × Value)),
      Document.construct reg m kw =
        constructPrepared reg m (cleanKwargs m (unprotectFields m.name kw))) ∧
    (∀ v : Value, unprotectFields "C" [("C_x", v)] = [("x", v)]) ∧
    Document.construct [] c10Model [("C_x", .int 7)] = .ok ⟨[("x", .int 7)], [("x", .int 7)]⟩ ∧
    (∀ (clsName k : String), strStartsWith (clsName ++ "_") k = true →
      strRemoveAll (clsName ++ "_") k ≠ k) ∧
    (∀ (clsName : String) (kwargs : List (String × Value)) (k : String),
      strStartsWith (clsName ++ "_") k = true →
      (∀ p ∈ kwargs, strStartsWith (clsName ++ "_") p.1 = true →
        strRemoveAll (clsName ++ "_") p.1 ≠ k) →
      alookup (unprotectFields clsName kwargs) k = Option.none) :=
  ⟨fun _ _ _ => rfl, fun _ => rfl, rfl, strRemoveAll_ne_self,
    fun clsName kwargs k hk hcol =>
      unprotect_foldl_none (clsName ++ "_") k hk kwargs [] rfl hcol⟩

/-- Witness for `c10_unprotect_on_every_init` at the concrete class name
`C` and input `{'C_x': 1}`: the protected key is absent from the
unprotected kwargs. -/
theorem c10_unprotect_on_every_init_witness :
    strStartsWith ("C" ++ "_") "C_x" = true ∧
    alookup (unprotectFields "C" [("C_x", .int 1)]) "C_x" = Option.none :=
  ⟨by decide,
    c10_unprotect_on_every_init.2.2.2.2 "C" [("C_x", .int 1)] "C_x" (by decide)
      (by intro p hp _
          simp only [List.mem_singleton] at hp
          subst hp
          decide)⟩

/-! ## Claim C4: export idempotence

The development below proves that exporting, re-constructing from the
export, and exporting again is the identity on the export, for every model
of the embedded field universe and every input that constructs and exports
successfully and whose export round-trips through the key-unprotection step
unchanged. -/

/-- `isNone` detects exactly the `none` value. -/
theorem isNone_iff (v : Value) : v.isNone = true ↔ v = .none := by
  cases v <;> simp [Value.isNone]

/-- Inversion of a successful `__set_value__`. -/
theorem setValueV_ok_inv (reg : Registry) (f : Field) (x v : Value)
    (h : f.setValueV reg x = .ok v) :
    typecastF reg f x = .ok v ∧ validateF f v = .ok () := by
  simp only [Field.setValueV] at h
  cases ht : typecastF reg f x with
  | error e => rw [ht] at h; exact nomatch h
  | ok w =>
      rw [ht] at h
      simp only [exceptBind_ok] at h
      cases hv : validateF f w with
      | error e => rw [hv] at h; exact nomatch h
      | ok u =>
          rw [hv] at h
          simp only [exceptBind_ok] at h
          injection h with h2
          subst h2
          cases u
          exact ⟨rfl, hv⟩

/-- Introduction of a successful `__set_value__`. -/
theorem setValueV_ok_of (reg : Registry) (f : Field) (x v : Value)
    (ht : typecastF reg f x = .ok v) (hv : validateF f v = .ok ()) :
    f.setValueV reg x = .ok v := by
  simp only [Field.setValueV, ht]
  show (validateF f v >>= fun _ => Except.ok v) = Except.ok v
  rw [hv]
  rfl

/-- Unfolding of a `_prepare_fields` step on a present key. -/
theorem stepOf_some_eq (reg : Registry) (omitB : Bool) (f : Field) (w : Value) :
    stepOf reg omitB f (some w) =
      (some ·) <$> f.setValueV reg (if w.isNone then f.default.resolve else w) := by
  simp [stepOf]

/-- A `DocumentField` coercion never succeeds in this source snapshot: the
registry resolution either fails or the constructor call raises. -/
theorem docFieldCast_no_ok (reg : Registry) (ref : OfType) (x v : Value)
    (h : docFieldCast reg ref x = .ok v) : False := by
  revert h
  unfold docFieldCast
  split
  · split <;> exact fun h => nomatch h
  · exact fun h => nomatch h

/-- A `_prepare_fields` step on a `DocumentField` never stores a value. -/
theorem stepOf_docField_no_some (reg : Registry) (omitB : Bool) (f : Field)
    (ref : OfType) (hk : f.kind = .docField ref) (vin : Option Value) (v : Value)
    (h : stepOf reg omitB f vin = .ok (some v)) : False := by
  have hsv : ∀ x u, f.setValueV reg x = .ok u → False := by
    intro x u hx
    obtain ⟨ht, _⟩ := setValueV_ok_inv reg f x u hx
    rw [typecastF, hk] at ht
    exact docFieldCast_no_ok reg ref x u ht
  cases vin with
  | some w =>
      rw [stepOf_some_eq] at h
      cases hs : f.setValueV reg (if w.isNone then f.default.resolve else w) with
      | error e => rw [hs] at h; exact nomatch h
      | ok u => exact hsv _ u hs
  | none =>
      simp only [stepOf, Option.isSome, FieldKind.isDoc, hk, if_true,
        Bool.false_eq_true, if_false] at h
      cases hs : f.setValueV reg (.dict []) with
      | error e => rw [hs] at h; exact nomatch h
      | ok u => exact hsv _ u hs

/-- Shape of a successful int coercion. -/
theorem pyIntCast_ok_shape (x v : Value) (h : pyIntCast x = .ok v) : ∃ n, v = .int n := by
  cases x <;> simp only [pyIntCast] at h
  case int n => injection h with h2; exact ⟨n, h2.symm⟩
  case float q => injection h with h2; exact ⟨_, h2.symm⟩
  case bool b => injection h with h2; exact ⟨_, h2.symm⟩
  case str s =>
      cases hp : pyIntParse s with
      | some n => rw [hp] at h; injection h with h2; exact ⟨n, h2.symm⟩
      | none => rw [hp] at h; exact nomatch h
  all_goals exact nomatch h

/-- Shape of a successful float coercion. -/
theorem pyFloatCast_ok_shape (x v : Value) (h : pyFloatCast x = .ok v) :
    ∃ q, v = .float q := by
  cases x <;> simp only [pyFloatCast] at h
  case int n => injection h with h2; exact ⟨_, h2.symm⟩
  case float q => injection h with h2; exact ⟨q, h2.symm⟩
  case bool b => injection h with h2; exact ⟨_, h2.symm⟩
  case str s =>
      cases hp : pyFloatParse s with
      | some q => rw [hp] at h; injection h with h2; exact ⟨q, h2.symm⟩
      | none => rw [hp] at h; exact nomatch h
  all_goals exact nomatch h

/-- Shape of a successful dict coercion. -/
theorem pyDictCast_ok_shape (x v : Value) (h : pyDictCast x = .ok v) :
    ∃ kvs, v = .dict kvs := by
  cases x <;> simp only [pyDictCast] at h
  case dict kvs => injection h with h2; exact ⟨kvs, h2.symm⟩
  case docInstance kvs => injection h with h2; exact ⟨kvs, h2.symm⟩
  all_goals exact nomatch h

/-- Element coercion is idempotent on its image. -/
theorem coerceElem_idem (of : OfType) (x y : Value) (h : coerceElem of x = .ok y) :
    coerceElem of y = .ok y := by
  cases of with
  | pyInt =>
      obtain ⟨n, hn⟩ := pyIntCast_ok_shape x y h
      subst hn
      rfl
  | pyFloat =>
      obtain ⟨q, hq⟩ := pyFloatCast_ok_shape x y h
      subst hq
      rfl
  | pyStr =>
      simp only [coerceElem, pyStrCast] at h ⊢
      injection h with h2
      subst h2
      rfl
  | pyBool =>
      simp only [coerceElem, pyBoolCast] at h ⊢
      injection h with h2
      subst h2
      rfl
  | docClass n => exact nomatch h
  | strName n => exact nomatch h

/-- Sequence coercion is idempotent on its image. -/
theorem coerceAll_idem (of : OfType) : ∀ (xs ys : List Value),
    coerceAll of xs = .ok ys → coerceAll of ys = .ok ys := by
  intro xs
  induction xs with
  | nil =>
      intro ys h
      injection h with h2
      subst h2
      rfl
  | cons x rest ih =>
      intro ys h
      simp only [coerceAll] at h
      cases hx : coerceElem of x with
      | error e => rw [hx] at h; exact nomatch h
      | ok y =>
          rw [hx] at h
          simp only [exceptBind_ok] at h
          cases hr : coerceAll of rest with
          | error e => rw [hr] at h; exact nomatch h
          | ok ws =>
              rw [hr] at h
              simp only [exceptBind_ok] at h
              injection h with h2
              subst h2
              simp only [coerceAll, coerceElem_idem of x y hx, ih ws hr]
              rfl

/-- Coercing into a document element type succeeds only on the empty
sequence (the positional constructor call raises on every element). -/
theorem coerceAll_docClass_nil (n : String) (xs ys : List Value)
    (h : coerceAll (.docClass n) xs = .ok ys) : xs = [] ∧ ys = [] := by
  cases xs with
  | nil =>
      injection h with h2
      exact ⟨rfl, h2.symm⟩
  | cons x rest => exact nomatch h

/-- The `value or []` normalization of `ListField._typecast` is the identity
on plain lists. -/
theorem ifTruthy_list (ys : List Value) :
    (if pyTruthy (.list ys) then Value.list ys else .list []) = .list ys := by
  cases ys <;> simp [pyTruthy, List.isEmpty]

/-- Inversion of the eager branch of `ListType.__init__`. -/
theorem ltInitSeq_eager_inv (o : OfType) (xs : List Value) (v : Value)
    (h : ((do
        let ys ← coerceAll o xs
        Except.ok (Value.listType o true ys)) : Except PyError Value) = .ok v) :
    ∃ ys, coerceAll o xs = .ok ys ∧ v = .listType o true ys := by
  cases hc : coerceAll o xs with
  | error e => rw [hc] at h; exact nomatch h
  | ok ys =>
      rw [hc] at h
      simp only [exceptBind_ok] at h
      injection h with h2
      exact ⟨ys, rfl, h2.symm⟩

/-- Inversion of `ListType.__init__` on an extracted element sequence. -/
theorem ltInitSeq_ok_inv (of : OfType) (xs : List Value) (v : Value)
    (h : ltInit.ltInitSeq of xs = .ok v) :
    (∃ s, of = .strName s ∧ v = .listType of false xs) ∨
    ((∀ s, of ≠ .strName s) ∧ ∃ ys, coerceAll of xs = .ok ys ∧ v = .listType of true ys) := by
  cases of with
  | strName s =>
      left
      refine ⟨s, rfl, ?_⟩
      injection h with h2
      exact h2.symm
  | pyInt =>
      right
      exact ⟨(fun s hs => nomatch hs), ltInitSeq_eager_inv _ xs v h⟩
  | pyFloat =>
      right
      exact ⟨(fun s hs => nomatch hs), ltInitSeq_eager_inv _ xs v h⟩
  | pyStr =>
      right
      exact ⟨(fun s hs => nomatch hs), ltInitSeq_eager_inv _ xs v h⟩
  | pyBool =>
      right
      exact ⟨(fun s hs => nomatch hs), ltInitSeq_eager_inv _ xs v h⟩
  | docClass n =>
      right
      exact ⟨(fun s hs => nomatch hs), ltInitSeq_eager_inv _ xs v h⟩

/-- Inversion of `ListType.__init__` on a raw value. -/
theorem ltInit_ok_inv (of : OfType) (z v : Value) (h : ltInit of z = .ok v) :
    ∃ xs, ltInit.ltInitSeq of xs = .ok v := by
  cases z <;> simp only [ltInit] at h <;> first
    | exact ⟨_, h⟩
    | exact nomatch h

/-- Re-wrapping the produced wrapper (through `value or []`) reproduces it:
the core of list-field coercion idempotence. -/
theorem ltInit_idem (of : OfType) (z v : Value) (h : ltInit of z = .ok v) :
    ltInit of (if pyTruthy v then v else .list []) = .ok v := by
  obtain ⟨xs, hseq⟩ := ltInit_ok_inv of z v h
  rcases ltInitSeq_ok_inv of xs v hseq with ⟨s, hof, hv⟩ | ⟨hns, ys, hca, hv⟩
  · subst hof
    subst hv
    cases xs with
    | nil => simp [pyTruthy, ltInit, ltInit.ltInitSeq]
    | cons x rest => simp [pyTruthy, ltInit, ltInit.ltInitSeq, List.isEmpty]
  · subst hv
    have hidem : coerceAll of ys = .ok ys := coerceAll_idem of xs ys hca
    have hred : ltInit.ltInitSeq of ys = .ok (.listType of true ys) := by
      cases of with
      | strName s => exact absurd rfl (hns s)
      | pyInt => simp only [ltInit.ltInitSeq, hidem, exceptBind_ok]
      | pyFloat => simp only [ltInit.ltInitSeq, hidem, exceptBind_ok]
      | pyStr => simp only [ltInit.ltInitSeq, hidem, exceptBind_ok]
      | pyBool => simp only [ltInit.ltInitSeq, hidem, exceptBind_ok]
      | docClass n => simp only [ltInit.ltInitSeq, hidem, exceptBind_ok]
    cases ys with
    | nil =>
        simp only [pyTruthy, List.isEmpty, Bool.not_true, Bool.false_eq_true, if_false]
        simpa [ltInit] using hred
    | cons y rest =>
        simp only [pyTruthy, List.isEmpty, Bool.not_false, if_true]
        simpa [ltInit] using hred

/-- Field coercion is idempotent on its image. -/
theorem typecastF_idem (reg : Registry) (f : Field) (x v : Value)
    (h : typecastF reg f x = .ok v) : typecastF reg f v = .ok v := by
  cases hk : f.kind <;> simp only [typecastF, hk] at h ⊢
  case integer =>
      cases hx : x.isNone with
      | true =>
          rw [hx] at h
          simp only [if_true] at h
          injection h with h2
          subst h2
          rfl
      | false =>
          rw [hx] at h
          simp only [Bool.false_eq_true, if_false] at h
          obtain ⟨n, hn⟩ := pyIntCast_ok_shape x v h
          subst hn
          rfl
  case float =>
      cases hx : x.isNone with
      | true =>
          rw [hx] at h
          simp only [if_true] at h
          injection h with h2
          subst h2
          rfl
      | false =>
          rw [hx] at h
          simp only [Bool.false_eq_true, if_false] at h
          obtain ⟨q, hq⟩ := pyFloatCast_ok_shape x v h
          subst hq
          rfl
  case char ml =>
      cases hx : x.isNone with
      | true =>
          rw [hx] at h
          simp only [if_true] at h
          injection h with h2
          subst h2
          rfl
      | false =>
          rw [hx] at h
          simp only [Bool.false_eq_true, if_false, pyStrCast] at h
          injection h with h2
          subst h2
          rfl
  case boolean =>
      cases hx : x.isNone with
      | true =>
          rw [hx] at h
          simp only [if_true] at h
          injection h with h2
          subst h2
          rfl
      | false =>
          rw [hx] at h
          simp only [Bool.false_eq_true, if_false, pyBoolCast] at h
          injection h with h2
          subst h2
          rfl
  case dictField =>
      cases hx : x.isNone with
      | true =>
          rw [hx] at h
          simp only [if_true] at h
          injection h with h2
          subst h2
          rfl
      | false =>
          rw [hx] at h
          simp only [Bool.false_eq_true, if_false] at h
          obtain ⟨kvs, hkv⟩ := pyDictCast_ok_shape x v h
          subst hkv
          rfl
  case listOf of => exact ltInit_idem of _ v h
  case docField ref => exact absurd h (fun hh => docFieldCast_no_ok reg ref _ v hh)

/-- A scalar-kind coercion that produced `None` was fed `None`. -/
theorem typecastF_ok_none_isNone (reg : Registry) (f : Field) (fv : Value)
    (hnl : ∀ of, f.kind ≠ .listOf of) (hnd : ∀ r2, f.kind ≠ .docField r2)
    (ht : typecastF reg f fv = .ok .none) : fv.isNone = true := by
  cases hk : f.kind <;> simp only [typecastF, hk] at ht
  case simple => injection ht with h2; rw [h2]; rfl
  case integer =>
      cases hx : fv.isNone with
      | true => rfl
      | false =>
          rw [hx] at ht
          simp only [Bool.false_eq_true, if_false] at ht
          obtain ⟨n, hn⟩ := pyIntCast_ok_shape fv .none ht
          exact nomatch hn
  case float =>
      cases hx : fv.isNone with
      | true => rfl
      | false =>
          rw [hx] at ht
          simp only [Bool.false_eq_true, if_false] at ht
          obtain ⟨q, hq⟩ := pyFloatCast_ok_shape fv .none ht
          exact nomatch hq
  case char ml =>
      cases hx : fv.isNone with
      | true => rfl
      | false =>
          rw [hx] at ht
          simp only [Bool.false_eq_true, if_false, pyStrCast] at ht
          injection ht with h2
          exact nomatch h2
  case boolean =>
      cases hx : fv.isNone with
      | true => rfl
      | false =>
          rw [hx] at ht
          simp only [Bool.false_eq_true, if_false, pyBoolCast] at ht
          injection ht with h2
          exact nomatch h2
  case dictField =>
      cases hx : fv.isNone with
      | true => rfl
      | false =>
          rw [hx] at ht
          simp only [Bool.false_eq_true, if_false] at ht
          obtain ⟨kvs, hkv⟩ := pyDictCast_ok_shape fv .none ht
          exact nomatch hkv
  case listOf of => exact absurd hk (hnl of)
  case docField r2 => exact absurd hk (hnd r2)

/-- Inversion of a successful `_prepare_fields` step that stored a value:
some argument was pushed through `__set_value__`, and when that argument was
`None` the field's resolved default was `None` as well. -/
theorem stepOf_some_inv (reg : Registry) (omitB : Bool) (f : Field) (vin : Option Value)
    (v : Value) (h : stepOf reg omitB f vin = .ok (some v)) :
    ∃ fv, f.setValueV reg fv = .ok v ∧
      (fv.isNone = true → (f.default.resolve).isNone = true) := by
  cases vin with
  | some w =>
      rw [stepOf_some_eq] at h
      cases hs : f.setValueV reg (if w.isNone then f.default.resolve else w) with
      | error e => rw [hs] at h; exact nomatch h
      | ok u =>
          rw [hs] at h
          simp only [exceptMap_ok] at h
          injection h with h2
          injection h2 with h3
          subst h3
          refine ⟨_, hs, fun hn => ?_⟩
          cases hw : w.isNone with
          | true => rw [hw] at hn; simpa using hn
          | false =>
              rw [hw] at hn
              simp only [Bool.false_eq_true, if_false] at hn
              rw [hw] at hn
              exact nomatch hn
  | none =>
      simp only [stepOf, Option.isSome, Bool.false_eq_true, if_false] at h
      cases hdoc : f.kind.isDoc with
      | true =>
          rw [hdoc] at h
          simp only [if_true] at h
          cases hs : f.setValueV reg (.dict []) with
          | error e => rw [hs] at h; exact nomatch h
          | ok u =>
              rw [hs] at h
              simp only [exceptMap_ok] at h
              injection h with h2
              injection h2 with h3
              subst h3
              exact ⟨.dict [], hs, fun hn => nomatch hn⟩
      | false =>
          rw [hdoc] at h
          simp only [Bool.false_eq_true, if_false] at h
          cases hcond : ((f.default.resolve).isNone && omitB) with
          | true =>
              rw [hcond] at h
              simp only [if_true] at h
              cases hvl : validateF f (f.default.resolve) with
              | error e => rw [hvl] at h; exact nomatch h
              | ok u =>
                  rw [hvl] at h
                  simp only [exceptBind_ok] at h
                  injection h with h2
                  exact nomatch h2
          | false =>
              rw [hcond] at h
              simp only [Bool.false_eq_true, if_false] at h
              cases hs : f.setValueV reg (f.default.resolve) with
              | error e => rw [hs] at h; exact nomatch h
              | ok u =>
                  rw [hs] at h
                  simp only [exceptMap_ok] at h
                  injection h with h2
                  injection h2 with h3
                  subst h3
                  exact ⟨_, hs, fun hn => hn⟩

/-- Core roundtrip for the scalar field kinds. -/
theorem setValueV_roundtrip_id (reg : Registry) (f : Field) (fv v : Value)
    (hnl : ∀ of, f.kind ≠ .listOf of) (hnd : ∀ r2, f.kind ≠ .docField r2)
    (ht : typecastF reg f fv = .ok v) (hval : validateF f v = .ok ())
    (hdef : fv.isNone = true → (f.default.resolve).isNone = true) :
    f.setValueV reg (if v.isNone then f.default.resolve else v) = .ok v := by
  cases hv : v.isNone with
  | true =>
      simp only [hv, if_true]
      have hvn : v = .none := (isNone_iff v).mp hv
      subst hvn
      have hfvn : fv.isNone = true := typecastF_ok_none_isNone reg f fv hnl hnd ht
      have h1 : f.default.resolve = .none := (isNone_iff _).mp (hdef hfvn)
      have h2 : fv = .none := (isNone_iff fv).mp hfvn
      rw [h1]
      rw [h2] at ht
      exact setValueV_ok_of reg f _ _ ht hval
  | false =>
      simp only [hv, Bool.false_eq_true, if_false]
      exact setValueV_ok_of reg f v v (typecastF_idem reg f fv v ht) hval

/-- The central roundtrip: a `_prepare_fields` step that stored `v`, whose
export (`to_python`) is `w`, stores the same `v` again when re-fed `w` as
the field's input. -/
theorem stepOf_roundtrip (reg : Registry) (omitB : Bool) (f : Field) (vin : Option Value)
    (v w : Value) (hstep : stepOf reg omitB f vin = .ok (some v))
    (htp : Field.toPython reg f v = .ok w) :
    stepOf reg omitB f (some w) = .ok (some v) := by
  obtain ⟨fv, hsv, hdef⟩ := stepOf_some_inv reg omitB f vin v hstep
  obtain ⟨ht, hval⟩ := setValueV_ok_inv reg f fv v hsv
  rw [stepOf_some_eq]
  suffices hgoal : f.setValueV reg (if w.isNone then f.default.resolve else w) = .ok v by
    rw [hgoal]; rfl
  cases hk : f.kind
  case docField ref =>
      exfalso
      simp only [typecastF, hk] at ht
      exact docFieldCast_no_ok reg ref fv v ht
  case listOf of =>
      simp only [typecastF, hk] at ht
      obtain ⟨xs, hseq⟩ := ltInit_ok_inv of _ v ht
      rcases ltInitSeq_ok_inv of xs v hseq with ⟨s, hof, hv⟩ | ⟨hns, ys, hca, hv⟩
      · -- raw wrapper with a string `of`
        subst hof
        subst hv
        simp only [Field.toPython, hk] at htp
        cases hm : ltMaterialize reg (.strName s, false, xs) with
        | error e => rw [hm] at htp; exact nomatch htp
        | ok ltm =>
            obtain ⟨om, bm, ysm⟩ := ltm
            rw [hm] at htp
            simp only [exceptBind_ok] at htp
            -- the materialization forces an empty raw list
            have hxs : xs = [] ∧ ysm = [] := by
              simp only [ltMaterialize] at hm
              cases hres : ltResolveOf reg (.strName s) with
              | error e => rw [hres] at hm; exact nomatch hm
              | ok of2 =>
                  rw [hres] at hm
                  simp only [exceptBind_ok] at hm
                  have hof2 : ∃ n2, of2 = .docClass n2 := by
                    revert hres
                    simp only [ltResolveOf]
                    cases regLookup reg s with
                    | none => intro hres; exact nomatch hres
                    | some mdl =>
                        intro hres
                        injection hres with h2
                        exact ⟨mdl.name, h2.symm⟩
                  obtain ⟨n2, hn2⟩ := hof2
                  subst hn2
                  cases hca2 : coerceAll (.docClass n2) xs with
                  | error e => rw [hca2] at hm; exact nomatch hm
                  | ok ys2 =>
                      rw [hca2] at hm
                      simp only [exceptBind_ok] at hm
                      obtain ⟨hxs0, hys0⟩ := coerceAll_docClass_nil n2 xs ys2 hca2
                      subst hxs0
                      subst hys0
                      injection hm with hm2
                      injection hm2 with e1 e2
                      injection e2 with e3 e4
                      exact ⟨rfl, e4.symm⟩
            obtain ⟨hxs0, hysm0⟩ := hxs
            subst hxs0
            subst hysm0
            have hw : w = .list [] := by
              injection htp with h2
              exact h2.symm
            subst hw
            apply setValueV_ok_of reg f _ _ ?_ hval
            rw [show (if (Value.list []).isNone = true then f.default.resolve
                else Value.list []) = Value.list [] from rfl]
            simp only [typecastF, hk]
            rfl
      · -- eagerly materialized wrapper
        subst hv
        simp only [Field.toPython, hk] at htp
        rw [show ltMaterialize reg (of, true, ys) = .ok (of, true, ys) from rfl] at htp
        simp only [exceptBind_ok] at htp
        have hysidem : coerceAll of ys = .ok ys := coerceAll_idem of xs ys hca
        cases of with
        | strName s => exact absurd rfl (hns s)
        | docClass n =>
            obtain ⟨hxs0, hys0⟩ := coerceAll_docClass_nil n xs ys hca
            subst hys0
            have hw : w = .list [] := by
              injection htp with h2
              exact h2.symm
            subst hw
            apply setValueV_ok_of reg f _ _ ?_ hval
            rw [show (if (Value.list []).isNone = true then f.default.resolve
                else Value.list []) = Value.list [] from rfl]
            simp only [typecastF, hk]
            rfl
        | pyInt =>
            have hw : w = .list ys := by
              injection htp with h2
              exact h2.symm
            subst hw
            apply setValueV_ok_of reg f _ _ ?_ hval
            rw [show (if (Value.list ys).isNone = true then f.default.resolve
                else Value.list ys) = Value.list ys from rfl]
            simp only [typecastF, hk]
            rw [ifTruthy_list]
            simp only [ltInit, ltInit.ltInitSeq]
            rw [hysidem]
            rfl
        | pyFloat =>
            have hw : w = .list ys := by
              injection htp with h2
              exact h2.symm
            subst hw
            apply setValueV_ok_of reg f _ _ ?_ hval
            rw [show (if (Value.list ys).isNone = true then f.default.resolve
                else Value.list ys) = Value.list ys from rfl]
            simp only [typecastF, hk]
            rw [ifTruthy_list]
            simp only [ltInit, ltInit.ltInitSeq]
            rw [hysidem]
            rfl
        | pyStr =>
            have hw : w = .list ys := by
              injection htp with h2
              exact h2.symm
            subst hw
            apply setValueV_ok_of reg f _ _ ?_ hval
            rw [show (if (Value.list ys).isNone = true then f.default.resolve
                else Value.list ys) = Value.list ys from rfl]
            simp only [typecastF, hk]
            rw [ifTruthy_list]
            simp only [ltInit, ltInit.ltInitSeq]
            rw [hysidem]
            rfl
        | pyBool =>
            have hw : w = .list ys := by
              injection htp with h2
              exact h2.symm
            subst hw
            apply setValueV_ok_of reg f _ _ ?_ hval
            rw [show (if (Value.list ys).isNone = true then f.default.resolve
                else Value.list ys) = Value.list ys from rfl]
            simp only [typecastF, hk]
            rw [ifTruthy_list]
            simp only [ltInit, ltInit.ltInitSeq]
            rw [hysidem]
            rfl
  all_goals
    have hw : w = v := by
      simp only [Field.toPython, hk] at htp
      injection htp with h2
      exact h2.symm
  all_goals subst hw
  all_goals
    exact setValueV_roundtrip_id reg f fv _
      (fun o ho => by rw [hk] at ho; exact nomatch ho)
      (fun r2 hr2 => by rw [hk] at hr2; exact nomatch hr2)
      ht hval hdef

/-- A key is absent from an association list iff lookup misses. -/
theorem alookup_none_iff (kvs : List (String × Value)) (k : String) :
    alookup kvs k = Option.none ↔ k ∉ akeys kvs := by
  induction kvs with
  | nil => simp [akeys]
  | cons hd tl ih =>
      obtain ⟨k0, v0⟩ := hd
      by_cases hk : k0 = k
      · subst hk
        simp [alookup, akeys]
      · simp [alookup, akeys, hk, ih, Ne.symm hk]

/-- Keys after an update: the old keys plus possibly the new one. -/
theorem akeys_aupdate_sub (kvs : List (String × Value)) (k k' : String) (v : Value)
    (h : k' ∈ akeys (aupdate kvs k v)) : k' ∈ akeys kvs ∨ k' = k := by
  induction kvs with
  | nil => simpa [aupdate, akeys] using h
  | cons hd tl ih =>
      obtain ⟨k0, v0⟩ := hd
      by_cases hk : k0 = k
      · subst hk
        left
        simpa [aupdate, akeys] using h
      · simp only [aupdate, hk, if_false, akeys, List.map_cons, List.mem_cons] at h ⊢
        rcases h with h | h
        · exact Or.inl (Or.inl h)
        · rcases ih h with h2 | h2
          · exact Or.inl (Or.inr h2)
          · exact Or.inr h2

/-- Updating preserves key distinctness. -/
theorem akeys_aupdate_nodup (kvs : List (String × Value)) (k : String) (v : Value)
    (h : (akeys kvs).Nodup) : (akeys (aupdate kvs k v)).Nodup := by
  by_cases hm : k ∈ akeys kvs
  · rwa [akeys_aupdate_of_mem kvs k v hm]
  · have : akeys (aupdate kvs k v) = akeys kvs ++ [k] := by
      induction kvs with
      | nil => simp [aupdate, akeys]
      | cons hd tl ih =>
          obtain ⟨k0, v0⟩ := hd
          by_cases hk : k0 = k
          · subst hk; simp [akeys] at hm
          · simp only [akeys, List.map_cons, List.mem_cons] at hm
            push_neg at hm
            simp only [aupdate, hk, if_false, akeys, List.map_cons, List.cons_append,
              List.cons.injEq, true_and]
            exact ih (by simp [akeys] at h ⊢; exact h.2) hm.2
    rw [this]
    simp only [List.nodup_append, List.nodup_cons, List.not_mem_nil, not_false_iff,
      List.nodup_nil, and_true, true_and]
    constructor
    · exact h
    · intro a ha hb
      simp only [List.mem_singleton] at hb
      subst hb
      exact hm ha

/-- `_prepare_fields` leaves keys outside the schema suffix untouched. -/
theorem prepareFields_untouched (reg : Registry) (omitB : Bool) :
    ∀ (fields : List Field) (a kw A K : List (String × Value)),
      prepareFields reg omitB fields a kw = .ok (A, K) →
      ∀ k, k ∉ fields.map Field.name → alookup K k = alookup kw k := by
  intro fields
  induction fields with
  | nil =>
      intro a kw A K h k _
      simp only [prepareFields] at h
      injection h with h2
      injection h2 with e1 e2
      subst e2
      rfl
  | cons f rest ih =>
      intro a kw A K h k hk
      simp only [prepareFields] at h
      simp only [List.map_cons, List.mem_cons] at hk
      push_neg at hk
      cases hs : stepOf reg omitB f (alookup kw f.name) with
      | error e => rw [hs] at h; exact nomatch h
      | ok o =>
          rw [hs] at h
          cases o with
          | none => exact ih a kw A K h k hk.2
          | some v =>
              have := ih _ _ A K h k hk.2
              rw [this, alookup_aupdate_ne _ _ _ _ (fun he => hk.1 he.symm)]

/-- Per-field outcome of a successful `_prepare_fields` run on a schema with
distinct field names: each field was either omitted (absent input, nothing
recorded) or stored, with the stored value bound in the final kwargs. -/
theorem prepareFields_stored (reg : Registry) (omitB : Bool) :
    ∀ (fields : List Field) (a kw A K : List (String × Value)),
      (fields.map Field.name).Nodup →
      prepareFields reg omitB fields a kw = .ok (A, K) →
      ∀ f ∈ fields,
        (stepOf reg omitB f (alookup kw f.name) = .ok Option.none ∧
          alookup K f.name = Option.none ∧ alookup kw f.name = Option.none) ∨
        (∃ v, stepOf reg omitB f (alookup kw f.name) = .ok (some v) ∧
          alookup K f.name = some v) := by
  intro fields
  induction fields with
  | nil => intro a kw A K _ _ f hf; exact absurd hf (List.not_mem_nil f)
  | cons f0 rest ih =>
      intro a kw A K hnd h f hf
      simp only [prepareFields] at h
      simp only [List.map_cons, List.nodup_cons] at hnd
      cases hs : stepOf reg omitB f0 (alookup kw f0.name) with
      | error e => rw [hs] at h; exact nomatch h
      | ok o =>
          rw [hs] at h
          rcases List.mem_cons.mp hf with hf0 | hfr
          · subst hf0
            cases o with
            | none =>
                have hvin : alookup kw f.name = Option.none :=
                  stepOf_ok_none reg omitB f _ hs
                left
                refine ⟨hs, ?_, hvin⟩
                rw [prepareFields_untouched reg omitB rest a kw A K h f.name hnd.1, hvin]
            | some v =>
                right
                refine ⟨v, hs, ?_⟩
                rw [prepareFields_untouched reg omitB rest _ _ A K h f.name hnd.1,
                  alookup_aupdate_self]
          · have hne : f0.name ≠ f.name := by
              intro he
              exact hnd.1 (he ▸ List.mem_map.mpr ⟨f, hfr, rfl⟩)
            cases o with
            | none => exact ih a kw A K hnd.2 h f hfr
            | some v =>
                have := ih _ _ A K hnd.2 h f hfr
                rwa [alookup_aupdate_ne _ _ _ _ hne] at this

/-- When every field absent from the kwargs is omitted, `_prepare_fields`
performs updates only at present keys, so the key list is unchanged. -/
theorem prepareFields_keys (reg : Registry) (omitB : Bool) :
    ∀ (fields : List Field) (a kw A K : List (String × Value)),
      prepareFields reg omitB fields a kw = .ok (A, K) →
      (∀ f ∈ fields, alookup kw f.name = Option.none →
        stepOf reg omitB f (Option.none : Option Value) = .ok Option.none) →
      akeys K = akeys kw := by
  intro fields
  induction fields with
  | nil =>
      intro a kw A K h _
      simp only [prepareFields] at h
      injection h with h2
      injection h2 with e1 e2
      subst e2
      rfl
  | cons f rest ih =>
      intro a kw A K h habs
      simp only [prepareFields] at h
      cases hs : stepOf reg omitB f (alookup kw f.name) with
      | error e => rw [hs] at h; exact nomatch h
      | ok o =>
          rw [hs] at h
          cases o with
          | none =>
              exact ih a kw A K h (fun g hg => habs g (List.mem_cons_of_mem f hg))
          | some v =>
              have hmem : f.name ∈ akeys kw := by
                cases hvin : alookup kw f.name with
                | none =>
                    exfalso
                    rw [hvin] at hs
                    rw [habs f (List.mem_cons_self f rest) hvin] at hs
                    injection hs with h2
                    exact nomatch h2
                | some w =>
                    by_contra hmem0
                    rw [(alookup_none_iff kw f.name).mpr hmem0] at hvin
                    exact nomatch hvin
              have hkeq : akeys (aupdate kw f.name v) = akeys kw :=
                akeys_aupdate_of_mem kw f.name v hmem
              rw [← hkeq]
              exact ih _ _ A K h (fun g hg hgn => by
                by_cases hne : f.name = g.name
                · rw [← hne, alookup_aupdate_self] at hgn
                  exact nomatch hgn
                · rw [alookup_aupdate_ne _ _ _ _ hne] at hgn
                  exact habs g (List.mem_cons_of_mem f hg) hgn)

/-- `_prepare_fields` preserves key distinctness. -/
theorem prepareFields_keys_nodup (reg : Registry) (omitB : Bool) :
    ∀ (fields : List Field) (a kw A K : List (String × Value)),
      prepareFields reg omitB fields a kw = .ok (A, K) →
      (akeys kw).Nodup → (akeys K).Nodup := by
  intro fields
  induction fields with
  | nil =>
      intro a kw A K h hn
      simp only [prepareFields] at h
      injection h with h2
      injection h2 with e1 e2
      subst e2
      exact hn
  | cons f rest ih =>
      intro a kw A K h hn
      simp only [prepareFields] at h
      cases hs : stepOf reg omitB f (alookup kw f.name) with
      | error e => rw [hs] at h; exact nomatch h
      | ok o =>
          rw [hs] at h
          cases o with
          | none => exact ih a kw A K h hn
          | some v => exact ih _ _ A K h (akeys_aupdate_nodup kw f.name v hn)

/-- Keys of the final kwargs come from the input kwargs or the schema. -/
theorem prepareFields_keys_sub (reg : Registry) (omitB : Bool) :
    ∀ (fields : List Field) (a kw A K : List (String × Value)),
      prepareFields reg omitB fields a kw = .ok (A, K) →
      ∀ k ∈ akeys K, k ∈ akeys kw ∨ k ∈ fields.map Field.name := by
  intro fields
  induction fields with
  | nil =>
      intro a kw A K h k hk
      simp only [prepareFields] at h
      injection h with h2
      injection h2 with e1 e2
      subst e2
      exact Or.inl hk
  | cons f rest ih =>
      intro a kw A K h k hk
      simp only [prepareFields] at h
      cases hs : stepOf reg omitB f (alookup kw f.name) with
      | error e => rw [hs] at h; exact nomatch h
      | ok o =>
          rw [hs] at h
          cases o with
          | none =>
              rcases ih a kw A K h k hk with h1 | h1
              · exact Or.inl h1
              · exact Or.inr (List.mem_cons_of_mem _ h1)
          | some v =>
              rcases ih _ _ A K h k hk with h1 | h1
              · rcases akeys_aupdate_sub kw f.name k v h1 with h2 | h2
                · exact Or.inl h2
                · exact Or.inr (h2 ▸ List.mem_cons_self _ _)
              · exact Or.inr (List.mem_cons_of_mem _ h1)

/-- `_prepare_fields` succeeds when every per-field step succeeds on the
field's (stable, by name distinctness) input binding. -/
theorem prepareFields_total (reg : Registry) (omitB : Bool) :
    ∀ (fields : List Field) (a kw : List (String × Value)),
      (fields.map Field.name).Nodup →
      (∀ f ∈ fields, ∃ o, stepOf reg omitB f (alookup kw f.name) = .ok o) →
      ∃ A K, prepareFields reg omitB fields a kw = .ok (A, K) := by
  intro fields
  induction fields with
  | nil => intro a kw _ _; exact ⟨a, kw, rfl⟩
  | cons f rest ih =>
      intro a kw hnd hok
      simp only [List.map_cons, List.nodup_cons] at hnd
      obtain ⟨o, ho⟩ := hok f (List.mem_cons_self f rest)
      cases o with
      | none =>
          obtain ⟨A, K, hAK⟩ := ih a kw hnd.2
            (fun g hg => hok g (List.mem_cons_of_mem f hg))
          exact ⟨A, K, by simp only [prepareFields, ho]; exact hAK⟩
      | some v =>
          obtain ⟨A, K, hAK⟩ := ih (aupdate a f.name v) (aupdate kw f.name v) hnd.2
            (fun g hg => by
              have hne : f.name ≠ g.name := by
                intro he
                exact hnd.1 (he ▸ List.mem_map.mpr ⟨g, hg, rfl⟩)
              rw [alookup_aupdate_ne _ _ _ _ hne]
              exact hok g (List.mem_cons_of_mem f hg))
          exact ⟨A, K, by simp only [prepareFields, ho]; exact hAK⟩

/-- On a schema with distinct names, looking a member field up by its own
name returns that field. -/
theorem findField_self (m : Model) (hnd : (m.fields.map Field.name).Nodup)
    (f : Field) (hf : f ∈ m.fields) : findField m f.name = some f := by
  unfold findField
  revert hnd hf
  generalize m.fields = fields
  induction fields with
  | nil => intro _ hf; exact absurd hf (List.not_mem_nil f)
  | cons g rest ih =>
      intro hnd hf
      simp only [List.map_cons, List.nodup_cons] at hnd
      rcases List.mem_cons.mp hf with h1 | h1
      · subst h1
        simp [List.find?]
      · have hne : g.name ≠ f.name := by
          intro he
          exact hnd.1 (he ▸ List.mem_map.mpr ⟨f, h1, rfl⟩)
        simp only [List.find?]
        rw [show (g.name == f.name) = false from beq_eq_false_iff_ne.mpr hne]
        exact ih hnd.2 h1

/-- Inversion of materializing a raw wrapper: the `of` is resolved through
the registry and every element coerced. -/
theorem ltMaterialize_raw_inv (reg : Registry) (of : OfType) (xs : List Value) (lt2 : LT)
    (h : ltMaterialize reg (of, false, xs) = .ok lt2) :
    ∃ o2 ys, ltResolveOf reg of = .ok o2 ∧ coerceAll o2 xs = .ok ys ∧
      lt2 = (o2, true, ys) := by
  simp only [ltMaterialize] at h
  cases hr : ltResolveOf reg of with
  | error e => rw [hr] at h; exact nomatch h
  | ok o2 =>
      rw [hr] at h
      simp only [exceptBind_ok] at h
      cases hc : coerceAll o2 xs with
      | error e => rw [hc] at h; exact nomatch h
      | ok ys =>
          rw [hc] at h
          simp only [exceptBind_ok] at h
          injection h with h2
          exact ⟨o2, ys, rfl, hc, h2.symm⟩

/-- Shape of a successful `str` cast. -/
theorem pyStrCast_ok_shape (x v : Value) (h : pyStrCast x = .ok v) : ∃ s, v = .str s := by
  simp only [pyStrCast] at h
  injection h with h2
  exact ⟨pyStrOf x, h2.symm⟩

/-- Shape of a successful `bool` cast. -/
theorem pyBoolCast_ok_shape (x v : Value) (h : pyBoolCast x = .ok v) : ∃ b, v = .bool b := by
  simp only [pyBoolCast] at h
  injection h with h2
  exact ⟨pyTruthy x, h2.symm⟩

/-- A value produced by list-element coercion is already plain data. -/
theorem coerceElem_plain (reg : Registry) (of : OfType) (x y : Value)
    (h : coerceElem of x = .ok y) : plainify reg y = .ok y := by
  cases of with
  | pyInt => obtain ⟨n, rfl⟩ := pyIntCast_ok_shape x y h; simp [plainify]
  | pyFloat => obtain ⟨q, rfl⟩ := pyFloatCast_ok_shape x y h; simp [plainify]
  | pyStr => obtain ⟨s, rfl⟩ := pyStrCast_ok_shape x y h; simp [plainify]
  | pyBool => obtain ⟨b, rfl⟩ := pyBoolCast_ok_shape x y h; simp [plainify]
  | docClass n => exact nomatch h
  | strName n => exact nomatch h

/-- A coerced element list is a fixed point of the plain-data conversion. -/
theorem coerceAll_plain (reg : Registry) (of : OfType) : ∀ (xs ys : List Value),
    coerceAll of xs = .ok ys → plainifyList reg ys = .ok ys := by
  intro xs
  induction xs with
  | nil =>
      intro ys h
      injection h with h2
      subst h2
      simp [plainifyList]
  | cons x rest ih =>
      intro ys h
      simp only [coerceAll] at h
      cases hcx : coerceElem of x with
      | error e => rw [hcx] at h; exact nomatch h
      | ok y =>
          rw [hcx] at h
          simp only [exceptBind_ok] at h
          cases hcr : coerceAll of rest with
          | error e => rw [hcr] at h; exact nomatch h
          | ok ys2 =>
              rw [hcr] at h
              simp only [exceptBind_ok] at h
              injection h with h2
              subst h2
              simp only [plainifyList, coerceElem_plain reg of x y hcx, exceptBind_ok,
                ih ys2 hcr]

mutual
/-- The plain-data conversion is a fixed point on its own output. -/
theorem plainify_fix (reg : Registry) : ∀ (v w : Value),
    plainify reg v = .ok w → plainify reg w = .ok w
  | .none, w, h => by
      simp only [plainify] at h
      injection h with h2
      subst h2
      simp [plainify]
  | .int n, w, h => by
      simp only [plainify] at h
      injection h with h2
      subst h2
      simp [plainify]
  | .float q, w, h => by
      simp only [plainify] at h
      injection h with h2
      subst h2
      simp [plainify]
  | .str s, w, h => by
      simp only [plainify] at h
      injection h with h2
      subst h2
      simp [plainify]
  | .bool b, w, h => by
      simp only [plainify] at h
      injection h with h2
      subst h2
      simp [plainify]
  | .list xs, w, h => by
      simp only [plainify] at h
      cases hl : plainifyList reg xs with
      | error e => rw [hl] at h; exact nomatch h
      | ok ys =>
          rw [hl] at h
          simp only [exceptMap_ok] at h
          injection h with h2
          subst h2
          simp only [plainify, plainifyList_fix reg xs ys hl, exceptMap_ok]
  | .dict kvs, w, h => by
      simp only [plainify] at h
      cases hl : plainifyPairs reg kvs with
      | error e => rw [hl] at h; exact nomatch h
      | ok ws =>
          rw [hl] at h
          simp only [exceptMap_ok] at h
          injection h with h2
          subst h2
          simp only [plainify, plainifyPairs_fix reg kvs ws hl, exceptMap_ok]
  | .docInstance kvs, w, h => by
      simp only [plainify] at h
      cases hl : plainifyPairs reg kvs with
      | error e => rw [hl] at h; exact nomatch h
      | ok ws =>
          rw [hl] at h
          simp only [exceptMap_ok] at h
          injection h with h2
          subst h2
          simp only [plainify, plainifyPairs_fix reg kvs ws hl, exceptMap_ok]
  | .listType of true xs, w, h => by
      simp only [plainify] at h
      cases hl : plainifyList reg xs with
      | error e => rw [hl] at h; exact nomatch h
      | ok ys =>
          rw [hl] at h
          simp only [exceptMap_ok] at h
          injection h with h2
          subst h2
          simp only [plainify, plainifyList_fix reg xs ys hl, exceptMap_ok]
  | .listType of false xs, w, h => by
      simp only [plainify] at h
      cases hm : ltMaterialize reg (of, false, xs) with
      | error e => rw [hm] at h; exact nomatch h
      | ok lt2 =>
          rw [hm] at h
          obtain ⟨o2, ys, _, hc, rfl⟩ := ltMaterialize_raw_inv reg of xs lt2 hm
          simp only [exceptBind_ok] at h
          injection h with h2
          subst h2
          simp only [plainify, coerceAll_plain reg o2 xs ys hc, exceptMap_ok]
termination_by v _ _ => sizeOf v

/-- The list plain-data conversion is a fixed point on its own output. -/
theorem plainifyList_fix (reg : Registry) : ∀ (xs ys : List Value),
    plainifyList reg xs = .ok ys → plainifyList reg ys = .ok ys
  | [], ys, h => by
      simp only [plainifyList] at h
      injection h with h2
      subst h2
      simp [plainifyList]
  | x :: rest, ys, h => by
      simp only [plainifyList] at h
      cases hx : plainify reg x with
      | error e => rw [hx] at h; exact nomatch h
      | ok y =>
          rw [hx] at h
          simp only [exceptBind_ok] at h
          cases hr : plainifyList reg rest with
          | error e => rw [hr] at h; exact nomatch h
          | ok ys2 =>
              rw [hr] at h
              simp only [exceptBind_ok] at h
              injection h with h2
              subst h2
              simp only [plainifyList, plainify_fix reg x y hx, exceptBind_ok,
                plainifyList_fix reg rest ys2 hr]
termination_by xs _ _ => sizeOf xs

/-- The pair-list plain-data conversion is a fixed point on its own output. -/
theorem plainifyPairs_fix (reg : Registry) : ∀ (kvs ws : List (String × Value)),
    plainifyPairs reg kvs = .ok ws → plainifyPairs reg ws = .ok ws
  | [], ws, h => by
      simp only [plainifyPairs] at h
      injection h with h2
      subst h2
      simp [plainifyPairs]
  | (k, v) :: rest, ws, h => by
      simp only [plainifyPairs] at h
      cases hv : plainify reg v with
      | error e => rw [hv] at h; exact nomatch h
      | ok y =>
          rw [hv] at h
          simp only [exceptBind_ok] at h
          cases hr : plainifyPairs reg rest with
          | error e => rw [hr] at h; exact nomatch h
          | ok ws2 =>
              rw [hr] at h
              simp only [exceptBind_ok] at h
              injection h with h2
              subst h2
              simp only [plainifyPairs, plainify_fix reg v y hv, exceptBind_ok,
                plainifyPairs_fix reg rest ws2 hr]
termination_by kvs _ _ => sizeOf kvs
end

/-- A present binding puts its key among the keys. -/
theorem mem_akeys_of_lookup (kvs : List (String × Value)) (k : String) (v : Value)
    (h : alookup kvs k = some v) : k ∈ akeys kvs := by
  by_contra hm
  rw [(alookup_none_iff kvs k).mpr hm] at h
  exact nomatch h

/-- A key among the keys has a binding. -/
theorem lookup_of_mem_akeys (kvs : List (String × Value)) (k : String)
    (h : k ∈ akeys kvs) : ∃ v, alookup kvs k = some v := by
  cases hl : alookup kvs k with
  | none => exact absurd ((alookup_none_iff kvs k).mp hl) (by simpa using h)
  | some v => exact ⟨v, rfl⟩

/-- A name the schema lookup misses is not a field name. -/
theorem findField_none_not_mem (m : Model) (k : String)
    (h : findField m k = Option.none) : k ∉ m.fieldNames := by
  intro hk
  obtain ⟨f, hf, _⟩ := findField_exists_of_mem m k hk
  rw [h] at hf
  exact nomatch hf

/-- `_unprotect_fields` never records a key twice. -/
theorem unprotect_keys_nodup_aux (prot : String) :
    ∀ (kvs acc : List (String × Value)),
      (akeys acc).Nodup → (akeys (kvs.foldl (unprotectStep prot) acc)).Nodup := by
  intro kvs
  induction kvs with
  | nil => intro acc h; exact h
  | cons kv rest ih =>
      intro acc h
      simp only [List.foldl_cons]
      apply ih
      unfold unprotectStep
      by_cases h1 : strStartsWith prot kv.1 = true
      · rw [if_pos h1]
        exact akeys_aupdate_nodup acc _ kv.2 h
      · rw [if_neg h1]
        by_cases h2 : (alookup acc kv.1).isSome = true
        · rw [if_pos h2]
          exact h
        · rw [if_neg h2]
          have hm : kv.1 ∉ akeys acc := by
            intro hmem
            obtain ⟨v, hv⟩ := lookup_of_mem_akeys acc kv.1 hmem
            rw [hv] at h2
            exact h2 rfl
          have : akeys (acc ++ [kv]) = akeys acc ++ [kv.1] := by
            simp [akeys]
          rw [this]
          simp only [List.nodup_append, List.nodup_cons, List.not_mem_nil, not_false_iff,
            List.nodup_nil, and_true, true_and]
          exact ⟨h, fun a ha hb => by
            simp only [List.mem_singleton] at hb
            exact hm (hb ▸ ha)⟩

/-- The keys produced by `_unprotect_fields` are distinct. -/
theorem unprotect_keys_nodup (clsName : String) (kwargs : List (String × Value)) :
    (akeys (unprotectFields clsName kwargs)).Nodup :=
  unprotect_keys_nodup_aux (clsName ++ "_") kwargs [] (by simp [akeys])

/-- `_clean_kwargs` is the identity when every key is a schema field (or
extra fields are allowed). -/
theorem cleanKwargs_eq_self (m : Model) (p : List (String × Value))
    (h : ∀ kv ∈ p, (findField m kv.1).isSome = true) : cleanKwargs m p = p := by
  unfold cleanKwargs
  by_cases ha : m.allowExtra
  · rw [if_pos ha]
  · rw [if_neg ha]
    exact List.filter_eq_self.mpr h

/-- Characterization of a successful export conversion: keys are preserved
exactly, and every binding of the output is the conversion of the matching
input binding — through the field's `to_python` for a schema key, through
the plain-data conversion for an extra key. -/
theorem convItems_char (reg : Registry) (m : Model) :
    ∀ (K p : List (String × Value)), convItems reg m K = .ok p →
      akeys p = akeys K ∧
      ∀ k, (alookup K k = Option.none → alookup p k = Option.none) ∧
        (∀ v, alookup K k = some v → ∃ w, alookup p k = some w ∧
          (∀ f, findField m k = some f → Field.toPython reg f v = .ok w) ∧
          (findField m k = Option.none → plainify reg v = .ok w)) := by
  intro K
  induction K with
  | nil =>
      intro p h
      injection h with h2
      subst h2
      exact ⟨rfl, fun k => ⟨fun _ => rfl, fun v hv => nomatch hv⟩⟩
  | cons kv K2 ih =>
      obtain ⟨k0, v0⟩ := kv
      intro p h
      simp only [convItems] at h
      cases hf : findField m k0 with
      | some f =>
          rw [hf] at h
          have hB : (do
              let w ← Field.toPython reg f v0
              let ws ← convItems reg m K2
              Except.ok ((k0, w) :: ws)) = Except.ok p := h
          cases hw : Field.toPython reg f v0 with
          | error e => rw [hw] at hB; exact nomatch hB
          | ok w0 =>
              rw [hw] at hB
              simp only [exceptBind_ok] at hB
              cases hrest : convItems reg m K2 with
              | error e => rw [hrest] at hB; exact nomatch hB
              | ok ps =>
                  rw [hrest] at hB
                  simp only [exceptBind_ok] at hB
                  injection hB with h2
                  subst h2
                  obtain ⟨hkeys, hper⟩ := ih ps hrest
                  refine ⟨congrArg (List.cons k0) hkeys, fun k => ?_⟩
                  by_cases hk : k0 = k
                  · subst hk
                    refine ⟨fun hnone => ?_, fun v hv => ?_⟩
                    · rw [alookup_cons, if_pos rfl] at hnone
                      exact nomatch hnone
                    · rw [alookup_cons, if_pos rfl] at hv
                      injection hv with hv2
                      subst hv2
                      refine ⟨w0, by rw [alookup_cons, if_pos rfl], fun g hg => ?_,
                        fun hn => ?_⟩
                      · rw [hf] at hg
                        injection hg with hg2
                        subst hg2
                        exact hw
                      · rw [hf] at hn
                        exact nomatch hn
                  · refine ⟨fun hnone => ?_, fun v hv => ?_⟩
                    · rw [alookup_cons, if_neg hk] at hnone
                      rw [alookup_cons, if_neg hk]
                      exact (hper k).1 hnone
                    · rw [alookup_cons, if_neg hk] at hv
                      obtain ⟨w, hpw, himpl⟩ := (hper k).2 v hv
                      exact ⟨w, by rw [alookup_cons, if_neg hk]; exact hpw, himpl⟩
      | none =>
          rw [hf] at h
          have hB : (do
              let w ← plainify reg v0
              let ws ← convItems reg m K2
              Except.ok ((k0, w) :: ws)) = Except.ok p := h
          cases hw : plainify reg v0 with
          | error e => rw [hw] at hB; exact nomatch hB
          | ok w0 =>
              rw [hw] at hB
              simp only [exceptBind_ok] at hB
              cases hrest : convItems reg m K2 with
              | error e => rw [hrest] at hB; exact nomatch hB
              | ok ps =>
                  rw [hrest] at hB
                  simp only [exceptBind_ok] at hB
                  injection hB with h2
                  subst h2
                  obtain ⟨hkeys, hper⟩ := ih ps hrest
                  refine ⟨congrArg (List.cons k0) hkeys, fun k => ?_⟩
                  by_cases hk : k0 = k
                  · subst hk
                    refine ⟨fun hnone => ?_, fun v hv => ?_⟩
                    · rw [alookup_cons, if_pos rfl] at hnone
                      exact nomatch hnone
                    · rw [alookup_cons, if_pos rfl] at hv
                      injection hv with hv2
                      subst hv2
                      refine ⟨w0, by rw [alookup_cons, if_pos rfl], fun g hg => ?_,
                        fun _ => hw⟩
                      rw [hf] at hg
                      exact nomatch hg
                  · refine ⟨fun hnone => ?_, fun v hv => ?_⟩
                    · rw [alookup_cons, if_neg hk] at hnone
                      rw [alookup_cons, if_neg hk]
                      exact (hper k).1 hnone
                    · rw [alookup_cons, if_neg hk] at hv
                      obtain ⟨w, hpw, himpl⟩ := (hper k).2 v hv
                      exact ⟨w, by rw [alookup_cons, if_neg hk]; exact hpw, himpl⟩

/-- Pointwise sufficient conditions for the export conversion to produce a
prescribed output: matching key sequences, distinct output keys, and per
binding either a `to_python` preimage (schema key) or an already-plain equal
binding (extra key). -/
theorem convItems_of_pointwise (reg : Registry) (m : Model) :
    ∀ (X P : List (String × Value)),
      akeys X = akeys P →
      (akeys P).Nodup →
      (∀ k w, alookup P k = some w →
        (∀ f, findField m k = some f →
          ∃ v, alookup X k = some v ∧ Field.toPython reg f v = .ok w) ∧
        (findField m k = Option.none →
          alookup X k = some w ∧ plainify reg w = .ok w)) →
      convItems reg m X = .ok P := by
  intro X
  induction X with
  | nil =>
      intro P hkeys _ _
      have : P = [] := by
        cases P with
        | nil => rfl
        | cons q qs => exact nomatch hkeys
      subst this
      rfl
  | cons kv X2 ih =>
      obtain ⟨k0, x0⟩ := kv
      intro P hkeys hnod hpt
      cases P with
      | nil => exact nomatch hkeys
      | cons q P2 =>
          obtain ⟨k0', w0⟩ := q
          simp only [akeys, List.map_cons, List.cons.injEq] at hkeys
          obtain ⟨hk0, hkeys2⟩ := hkeys
          subst hk0
          simp only [akeys, List.map_cons, List.nodup_cons] at hnod
          have hPw0 : alookup ((k0, w0) :: P2) k0 = some w0 := by
            rw [alookup_cons, if_pos rfl]
          have hpt0 := hpt k0 w0 hPw0
          have hentry : (match findField m k0 with
              | some f => f.toPython reg x0
              | Option.none => plainify reg x0) = .ok w0 := by
            cases hf : findField m k0 with
            | some f =>
                obtain ⟨v, hvX, htp⟩ := hpt0.1 f hf
                rw [alookup_cons, if_pos rfl] at hvX
                injection hvX with hvX2
                rw [hvX2]
                exact htp
            | none =>
                obtain ⟨hvX, hpl⟩ := hpt0.2 hf
                rw [alookup_cons, if_pos rfl] at hvX
                injection hvX with hvX2
                rw [hvX2]
                exact hpl
          have hrec : convItems reg m X2 = .ok P2 := by
            apply ih P2 (by simpa [akeys] using hkeys2) hnod.2
            intro k w hPk
            have hmem : k ∈ akeys P2 := mem_akeys_of_lookup P2 k w hPk
            have hkne : k0 ≠ k := by
              intro he
              exact hnod.1 (he ▸ hmem)
            have hPfull : alookup ((k0, w0) :: P2) k = some w := by
              rw [alookup_cons, if_neg hkne]
              exact hPk
            have := hpt k w hPfull
            refine ⟨fun f hf => ?_, fun hf => ?_⟩
            · obtain ⟨v, hvX, htp⟩ := this.1 f hf
              rw [alookup_cons, if_neg hkne] at hvX
              exact ⟨v, hvX, htp⟩
            · obtain ⟨hvX, hpl⟩ := this.2 hf
              rw [alookup_cons, if_neg hkne] at hvX
              exact ⟨hvX, hpl⟩
          simp only [convItems, hentry, exceptBind_ok, hrec]

/-- Inversion of the post-cleaning construction pipeline. -/
theorem constructPrepared_inv (reg : Registry) (m : Model) (kw : List (String × Value))
    (d : DocInstance) (h : constructPrepared reg m kw = .ok d) :
    prepareFields reg m.omitMissed m.fields [] kw = .ok (d.attrs, d.items) := by
  simp only [constructPrepared] at h
  cases hp : prepareFields reg m.omitMissed m.fields [] kw with
  | error e => rw [hp] at h; exact nomatch h
  | ok AK =>
      obtain ⟨A, K⟩ := AK
      rw [hp] at h
      simp only [exceptBind_ok] at h
      injection h with h2
      subst h2
      rfl

/-- C4: for an input that round-trips through the schema — its construction
and export both succeed, the schema's field names are distinct, and the
exported keys are untouched by the `_unprotect_fields` renaming pass —
re-constructing from the export succeeds and exporting again returns the
same plain mapping: `as_dict ∘ construct` is idempotent on exports. -/
theorem c4_as_dict_idempotent (reg : Registry) (m : Model) (r : List (String × Value))
    (d : DocInstance) (p : List (String × Value))
    (hnd : (m.fields.map Field.name).Nodup)
    (hc : Document.construct reg m r = .ok d)
    (hd : Document.asDict reg m d = .ok p)
    (hrt : unprotectFields m.name p = p) :
    ∃ d2, Document.construct reg m p = .ok d2 ∧ Document.asDict reg m d2 = .ok p := by
  unfold Document.construct at hc
  set kw0 := cleanKwargs m (unprotectFields m.name r) with hkw0
  have hprep1 := constructPrepared_inv reg m kw0 d hc
  unfold Document.asDict at hd
  obtain ⟨hkeysP, hperP⟩ := convItems_char reg m d.items p hd
  have hclass := prepareFields_stored reg m.omitMissed m.fields [] kw0 d.attrs d.items
    hnd hprep1
  have hfield2 : ∀ f ∈ m.fields,
      (alookup p f.name = Option.none ∧
        stepOf reg m.omitMissed f (alookup p f.name) = .ok Option.none) ∨
      (∃ v w, alookup p f.name = some w ∧
        stepOf reg m.omitMissed f (alookup p f.name) = .ok (some v) ∧
        Field.toPython reg f v = .ok w) := by
    intro f hf
    rcases hclass f hf with ⟨hs1, hKn, hkwn⟩ | ⟨v, hs1, hKs⟩
    · left
      have hpn : alookup p f.name = Option.none := (hperP f.name).1 hKn
      refine ⟨hpn, ?_⟩
      rw [hpn]
      rw [hkwn] at hs1
      exact hs1
    · right
      obtain ⟨w, hpw, himpl⟩ := (hperP f.name).2 v hKs
      have hff : findField m f.name = some f := findField_self m hnd f hf
      have htp : Field.toPython reg f v = .ok w := himpl.1 f hff
      refine ⟨v, w, hpw, ?_, htp⟩
      rw [hpw]
      exact stepOf_roundtrip reg m.omitMissed f _ v w hs1 htp
  obtain ⟨A2, K2, hprep2⟩ := prepareFields_total reg m.omitMissed m.fields [] p hnd
    (fun f hf => by
      rcases hfield2 f hf with ⟨_, hs⟩ | ⟨v, w, _, hs, _⟩
      · exact ⟨Option.none, hs⟩
      · exact ⟨some v, hs⟩)
  have hclean : cleanKwargs m p = p := by
    by_cases ha : m.allowExtra = true
    · unfold cleanKwargs
      rw [if_pos ha]
    · apply cleanKwargs_eq_self
      intro kv hkv
      have hmemp : kv.1 ∈ akeys p := List.mem_map.mpr ⟨kv, hkv, rfl⟩
      rw [hkeysP] at hmemp
      rcases prepareFields_keys_sub reg m.omitMissed m.fields [] kw0 d.attrs d.items
          hprep1 kv.1 hmemp with hin | hin
      · obtain ⟨pair, hpair, hpfst⟩ := List.mem_map.mp hin
        rw [hkw0] at hpair
        unfold cleanKwargs at hpair
        rw [if_neg ha] at hpair
        have hflt := List.of_mem_filter hpair
        rw [hpfst] at hflt
        exact hflt
      · obtain ⟨g, hg, _⟩ := findField_exists_of_mem m kv.1 hin
        rw [hg]
        rfl
  have hconstruct2 : Document.construct reg m p = .ok ⟨A2, K2⟩ := by
    unfold Document.construct
    rw [hrt, hclean]
    unfold constructPrepared
    rw [hprep2]
    rfl
  have habs2 : ∀ f ∈ m.fields, alookup p f.name = Option.none →
      stepOf reg m.omitMissed f (Option.none : Option Value) = .ok Option.none := by
    intro f hf hpn
    rcases hfield2 f hf with ⟨_, hs⟩ | ⟨v, w, hpw, _, _⟩
    · rw [hpn] at hs
      exact hs
    · rw [hpw] at hpn
      exact nomatch hpn
  have hkeys2 : akeys K2 = akeys p :=
    prepareFields_keys reg m.omitMissed m.fields [] p A2 K2 hprep2 habs2
  have hnodP : (akeys p).Nodup := by
    rw [← hrt]
    exact unprotect_keys_nodup m.name p
  have hstored2 := prepareFields_stored reg m.omitMissed m.fields [] p A2 K2 hnd hprep2
  have hconv2 : convItems reg m K2 = .ok p := by
    apply convItems_of_pointwise reg m K2 p hkeys2 hnodP
    intro k w hpk
    constructor
    · intro f hff
      have hf : f ∈ m.fields := List.mem_of_find?_eq_some hff
      have hfn : f.name = k := findField_name m k f hff
      subst hfn
      rcases hfield2 f hf with ⟨hpn, _⟩ | ⟨v, w2, hpw, hs2, htp⟩
      · rw [hpn] at hpk
        exact nomatch hpk
      · rw [hpw] at hpk
        injection hpk with hw2
        subst hw2
        rcases hstored2 f hf with ⟨_, _, hpn⟩ | ⟨v2, hs2b, hK2⟩
        · rw [hpw] at hpn
          exact nomatch hpn
        · rw [hs2] at hs2b
          injection hs2b with hv2
          injection hv2 with hv2b
          subst hv2b
          exact ⟨v, hK2, htp⟩
    · intro hffn
      have hknf : k ∉ m.fieldNames := findField_none_not_mem m k hffn
      have huntouched : alookup K2 k = alookup p k :=
        prepareFields_untouched reg m.omitMissed m.fields [] p A2 K2 hprep2 k hknf
      refine ⟨by rw [huntouched]; exact hpk, ?_⟩
      have hkK : k ∈ akeys d.items := by
        rw [← hkeysP]
        exact mem_akeys_of_lookup p k w hpk
      obtain ⟨v1, hv1⟩ := lookup_of_mem_akeys d.items k hkK
      obtain ⟨w1, hpw1, himpl1⟩ := (hperP k).2 v1 hv1
      rw [hpk] at hpw1
      injection hpw1 with hw1
      have hpl : plainify reg v1 = .ok w1 := himpl1.2 hffn
      rw [← hw1] at hpl
      exact plainify_fix reg v1 w hpl
  exact ⟨⟨A2, K2⟩, hconstruct2, hconv2⟩

/-- A registry with no registered models. -/
def c4Reg : Registry := []

/-- A model mixing an integer field, a required char field and a
string-element list field. -/
def c4Model : Model :=
  { name := "M",
    fields := [{ kind := .integer, name := "id" },
               { kind := .char Option.none, name := "name", required := true },
               { kind := .listOf .pyStr, name := "tags" }] }

/-- A raw input for `c4Model` exercising coercion on every field. -/
def c4Input : List (String × Value) :=
  [("id", .str "1"), ("name", .str "Bob"), ("tags", .list [.str "a"])]

/-- The instance constructed from `c4Input`. -/
def c4Doc : DocInstance :=
  ⟨[("id", .int 1), ("name", .str "Bob"), ("tags", .listType .pyStr true [.str "a"])],
   [("id", .int 1), ("name", .str "Bob"), ("tags", .listType .pyStr true [.str "a"])]⟩

/-- The plain-data export of `c4Doc`. -/
def c4Plain : List (String × Value) :=
  [("id", .int 1), ("name", .str "Bob"), ("tags", .list [.str "a"])]

theorem c4_as_dict_idempotent_witness :
    (c4Model.fields.map Field.name).Nodup ∧
    Document.construct c4Reg c4Model c4Input = .ok c4Doc ∧
    Document.asDict c4Reg c4Model c4Doc = .ok c4Plain ∧
    unprotectFields c4Model.name c4Plain = c4Plain ∧
    ∃ d2, Document.construct c4Reg c4Model c4Plain = .ok d2 ∧
      Document.asDict c4Reg c4Model d2 = .ok c4Plain :=
  ⟨by decide, rfl, rfl, rfl,
    c4_as_dict_idempotent c4Reg c4Model c4Input c4Doc c4Plain (by decide) rfl rfl rfl⟩

end SimpleModels
